import Mathlib

/-! # Personal finance manager: the ledger store of `src/App.js`

A shallow embedding of the component `App` of `src/App.js` and of the
ECMAScript built-ins it calls, followed by the properties of the ledger.

Modelling conventions.

* A JavaScript number is a `JSNum`: `NaN`, `+Infinity`, `-Infinity`, or a
  finite value held as a rational.  `Number(text)`, `+`, `-` and `JSON.parse`
  round their exact result to the nearest binary64 value, ties to even
  (`roundBinary64`), with subnormals and overflow to an infinity.  The finite
  values that occur are those `roundBinary64` leaves unchanged
  (`JSNum.IsBinary64`).  The sign of zero is not modelled; no zero is stored.
* `JSON.stringify` and `JSON.parse` work on the characters of the stored text:
  QuoteJSONString and Number::toString on one side, a recursive-descent parser
  of the JSON grammar on the other.  A string is a list of `Char`, so an escaped
  surrogate code unit has no counterpart and is read as U+FFFD.
* `localStorage` is a list of key/value pairs of strings.
* `form.type`, `form.category` and the two filter selectors only ever hold
  the `value` of an `<option>` of their `<select>` (App.js lines 145-164 and
  185-200); they are enumerations here.  None of the category names is a
  property inherited from `Object.prototype`, so a property read on the fresh
  object `expenseByCategory` sees own properties only.
* `form.date` and `form.description` are free text.  `form.amount` is text too;
  `handleSubmit` is defined on any text, and `numberInputValue` gives the text
  the number input of the form hands over for what is typed.
* `Date.now()` and `new Date().toISOString().split("T")[0]` are the two
  components of a clock reading passed to `handleSubmit`.
* Each handler runs on the state produced by the previous one (React has
  re-rendered between two events).
-/

namespace App

/-! ## JavaScript numbers -/

/-- The Number type: NaN, the two infinities, and the finite values. -/
inductive JSNum where
  | nan
  | posInf
  | negInf
  | fin (q : ℚ)
  deriving DecidableEq

/-- The number of binary digits of a natural number. -/
def bitLength : Nat → Nat → Nat
  | 0, _ => 0
  | fuel + 1, n => if n = 0 then 0 else bitLength fuel (n / 2) + 1

/-- The value `2^e`. -/
def pow2 (e : Int) : ℚ := if 0 ≤ e then (2 : ℚ) ^ e.toNat else 1 / (2 : ℚ) ^ (-e).toNat

/-- The exponent `e` with `2^e ≤ a < 2^(e+1)`, for `a > 0`. -/
def floorLog2 (a : ℚ) : Int :=
  let e0 : Int := (bitLength a.num.toNat a.num.toNat : Int) - (bitLength a.den a.den : Int)
  if pow2 e0 ≤ a then e0 else e0 - 1

/-- Rounds a non-negative rational to the nearest natural number, ties to even. -/
def roundHalfEven (m : ℚ) : Nat :=
  let f := m.num.toNat / m.den
  let r := m.num.toNat % m.den
  if 2 * r < m.den then f
  else if m.den < 2 * r then f + 1
  else if f % 2 = 0 then f else f + 1

/-- The Number value for a real number: the nearest binary64 value, ties to even
(53 significant bits, exponents from -1022, subnormals below, an infinity from
`2^1024` on). -/
def roundBinary64 (q : ℚ) : JSNum :=
  if q = 0 then .fin 0
  else
    let a := |q|
    let p : Int := max (floorLog2 a) (-1022) - 52
    let r : ℚ := (roundHalfEven (a / pow2 p) : ℚ) * pow2 p
    if pow2 1024 ≤ r then (if q < 0 then .negInf else .posInf)
    else .fin (if q < 0 then -r else r)

namespace JSNum

/-- Number::add, the `+` operator on two numbers: the exact sum, rounded. -/
def add : JSNum → JSNum → JSNum
  | fin a, fin b => roundBinary64 (a + b)
  | nan, _ => nan
  | _, nan => nan
  | posInf, negInf => nan
  | negInf, posInf => nan
  | posInf, _ => posInf
  | _, posInf => posInf
  | negInf, _ => negInf
  | _, negInf => negInf

/-- Number::unaryMinus. -/
def neg : JSNum → JSNum
  | nan => nan
  | posInf => negInf
  | negInf => posInf
  | fin q => fin (-q)

/-- Number::subtract, the `-` operator on two numbers: `x + (-y)`. -/
def sub (x y : JSNum) : JSNum := add x (neg y)

/-- Number::lessThan; `none` is the result `undefined` (an operand is NaN). -/
def lessThan : JSNum → JSNum → Option Bool
  | nan, _ => none
  | _, nan => none
  | fin a, fin b => some (decide (a < b))
  | posInf, _ => some false
  | _, posInf => some true
  | _, negInf => some false
  | negInf, _ => some true

/-- The operator `x <= y` on numbers: false when `y < x` is true or undefined. -/
def le (x y : JSNum) : Bool :=
  match lessThan y x with
  | some false => true
  | _ => false

/-- The operator `x < y` on numbers: true only when Number::lessThan is true. -/
def lt (x y : JSNum) : Bool :=
  match lessThan x y with
  | some true => true
  | _ => false

/-- ToBoolean on a number: false for 0 and NaN. -/
def toBoolean : JSNum → Bool
  | nan => false
  | fin q => decide (q ≠ 0)
  | _ => true

/-- The expression `v || 0` where `v` is a number or `undefined` (`none`). -/
def orZero : Option JSNum → JSNum
  | some x => if x.toBoolean then x else fin 0
  | none => fin 0

end JSNum

/-! ## StringToNumber: the coercion behind `Number(text)` and `text <= 0` -/

/-- StrWhiteSpaceChar: WhiteSpace (TAB, VT, FF, ZWNBSP, the space separators)
and LineTerminator (LF, CR, LS, PS). -/
def isStrWhiteSpaceChar (c : Char) : Bool :=
  let n := c.toNat
  n == 0x9 || n == 0xA || n == 0xB || n == 0xC || n == 0xD || n == 0x20 ||
  n == 0xA0 || n == 0x1680 || (0x2000 ≤ n && n ≤ 0x200A) || n == 0x2028 ||
  n == 0x2029 || n == 0x202F || n == 0x205F || n == 0x3000 || n == 0xFEFF

/-- Strips leading and trailing StrWhiteSpaceChar. -/
def trimWhiteSpace (cs : List Char) : List Char :=
  ((cs.dropWhile isStrWhiteSpaceChar).reverse.dropWhile isStrWhiteSpaceChar).reverse

/-- DecimalDigit. -/
def isDecDigit (c : Char) : Bool := 48 ≤ c.toNat && c.toNat ≤ 57

/-- The value of a digit in the given radix, `none` if it is not one. -/
def digitValue (base : Nat) (c : Char) : Option Nat :=
  let n := c.toNat
  let v : Option Nat :=
    if 48 ≤ n ∧ n ≤ 57 then some (n - 48)
    else if 97 ≤ n ∧ n ≤ 102 then some (n - 87)
    else if 65 ≤ n ∧ n ≤ 70 then some (n - 55)
    else none
  v.filter (fun d => decide (d < base))

/-- The mathematical value of a run of digits in the given radix. -/
def digitsValue (base : Nat) (cs : List Char) : Nat :=
  cs.foldl (fun acc c => acc * base + (digitValue base c).getD 0) 0

/-- The value `m × 10^e`. -/
def scale10 (m : ℚ) (e : Int) : ℚ :=
  if 0 ≤ e then m * (10 : ℚ) ^ e.toNat else m / (10 : ℚ) ^ (-e).toNat

/-- A non-empty run of decimal digits. -/
def isDecimalDigits (cs : List Char) : Bool := !cs.isEmpty && cs.all isDecDigit

/-- An optional ExponentPart that must use up the text: its value (0 when absent). -/
def readExponentPart : List Char → Option Int
  | [] => some 0
  | c :: cs =>
    if c = 'e' ∨ c = 'E' then
      match cs with
      | [] => none
      | s :: ds =>
        if s = '+' then
          (if isDecimalDigits ds then some (digitsValue 10 ds : Int) else none)
        else if s = '-' then
          (if isDecimalDigits ds then some (-(digitsValue 10 ds : Int)) else none)
        else
          (if isDecimalDigits cs then some (digitsValue 10 cs : Int) else none)
    else none

/-- StrUnsignedDecimalLiteral: `Infinity`, or digits with an optional fraction
and exponent (at least one digit before or after the point); the value of the
literal is rounded to binary64. -/
def readUnsignedDecimal (cs : List Char) : Option JSNum :=
  if cs = ['I', 'n', 'f', 'i', 'n', 'i', 't', 'y'] then some JSNum.posInf
  else
    let ip := cs.takeWhile isDecDigit
    let r1 := cs.dropWhile isDecDigit
    let fp := match r1 with
      | [] => []
      | c :: r => if c = '.' then r.takeWhile isDecDigit else []
    let r2 := match r1 with
      | [] => []
      | c :: r => if c = '.' then r.dropWhile isDecDigit else r1
    if ip.isEmpty && fp.isEmpty then none
    else
      match readExponentPart r2 with
      | some e => some (roundBinary64 (scale10 (digitsValue 10 (ip ++ fp)) (e - fp.length)))
      | none => none

/-- StrDecimalLiteral: an optionally signed StrUnsignedDecimalLiteral. -/
def readDecimal : List Char → Option JSNum
  | [] => none
  | c :: cs =>
    if c = '+' then readUnsignedDecimal cs
    else if c = '-' then (readUnsignedDecimal cs).map JSNum.neg
    else readUnsignedDecimal (c :: cs)

/-- NonDecimalIntegerLiteral body: a non-empty run of digits of the radix. -/
def readRadix (base : Nat) (ds : List Char) : JSNum :=
  if !ds.isEmpty && ds.all (fun c => (digitValue base c).isSome) then
    roundBinary64 (digitsValue base ds)
  else JSNum.nan

/-- StringToNumber on the code points of the text. -/
def stringToNumberChars (text : List Char) : JSNum :=
  match trimWhiteSpace text with
  | [] => JSNum.fin 0
  | c :: cs =>
    let dec := (readDecimal (c :: cs)).getD JSNum.nan
    if c = '0' then
      match cs with
      | [] => dec
      | x :: ds =>
        if x = 'x' ∨ x = 'X' then readRadix 16 ds
        else if x = 'o' ∨ x = 'O' then readRadix 8 ds
        else if x = 'b' ∨ x = 'B' then readRadix 2 ds
        else dec
    else dec

/-- ToNumber on a string (`Number(text)`, and the coercion of `text <= 0`). -/
def toNumber (text : String) : JSNum := stringToNumberChars text.toList

/-- ToBoolean on a string: false exactly for the empty string. -/
def strToBoolean (s : String) : Bool := !s.toList.isEmpty

/-! ## The amount field: `<input type="number">` (App.js lines 173-178) -/

/-- A valid floating-point number of HTML: an optional `-`, then digits, or a
point and digits, or both, then an optional exponent (`e` or `E`, an optional
sign, digits). -/
def isValidFloatingPointNumber (cs : List Char) : Bool :=
  let body := match cs with
    | [] => []
    | c :: r => if c = '-' then r else c :: r
  let ip := body.takeWhile isDecDigit
  match body.dropWhile isDecDigit with
  | [] => !ip.isEmpty
  | c :: r =>
    if c = '.' then
      !(r.takeWhile isDecDigit).isEmpty && (readExponentPart (r.dropWhile isDecDigit)).isSome
    else !ip.isEmpty && (readExponentPart (c :: r)).isSome

/-- A finite number: neither NaN nor an infinity. -/
def JSNum.isFinite : JSNum → Bool
  | .fin _ => true
  | _ => false

/-- The `value` a number input hands to `onChange` (value sanitization): the text
typed when it is a valid floating-point number with a finite value, the empty
string otherwise. -/
def numberInputValue (typed : String) : String :=
  if isValidFloatingPointNumber typed.toList && (toNumber typed).isFinite then typed else ""

/-! ## Data model -/

/-- The values of the type `<select>` (App.js lines 149-150). -/
inductive TxType where
  | income
  | expense
  deriving DecidableEq

/-- The values of the category `<select>` (App.js lines 157-163). -/
inductive Category where
  | Salary
  | Food
  | Transport
  | Shopping
  | Bills
  | Entertainment
  | Other
  deriving DecidableEq

/-- The `form` state (App.js lines 29-35): the draft being edited. -/
structure Form where
  date : String
  type : TxType
  category : Category
  description : String
  amount : String
  deriving DecidableEq

/-- A stored record `{ ...form, id: Date.now(), amount: Number(form.amount) }`. -/
structure Transaction where
  date : String
  type : TxType
  category : Category
  description : String
  amount : JSNum
  id : Int
  deriving DecidableEq

/-- A clock reading: `Date.now()` and `new Date().toISOString().split("T")[0]`. -/
structure Clock where
  now : Int
  today : String
  deriving DecidableEq

/-- The part of the component state that `handleSubmit` reads and writes. -/
structure AppState where
  transactions : List Transaction
  form : Form
  deriving DecidableEq

/-- The value of a filter `<select>` (App.js lines 185-200): `"all"` or an option. -/
inductive Selector (α : Type) where
  | all
  | only (a : α)
  deriving DecidableEq

/-- The form `setForm` resets to after a successful submit (App.js lines 69-75). -/
def defaultForm (today : String) : Form :=
  { date := today, type := .income, category := .Salary, description := "", amount := "" }

/-! ## Operations of the component -/

/-- The guard `!form.description || form.amount <= 0` (App.js line 62). -/
def rejects (form : Form) : Bool :=
  !strToBoolean form.description || JSNum.le (toNumber form.amount) (JSNum.fin 0)

/-- `handleSubmit` (App.js lines 60-76). -/
def handleSubmit (clock : Clock) (s : AppState) : AppState :=
  if rejects s.form then s
  else
    { transactions := s.transactions ++
        [{ date := s.form.date, type := s.form.type, category := s.form.category,
           description := s.form.description, amount := toNumber s.form.amount,
           id := clock.now }],
      form := defaultForm clock.today }

/-- `deleteTransaction` (App.js lines 78-80). -/
def deleteTransaction (transactions : List Transaction) (id : Int) : List Transaction :=
  transactions.filter (fun t => t.id != id)

/-- The test `filter === "all" || field === filter`. -/
def Selector.admits {α : Type} [DecidableEq α] (sel : Selector α) (field : α) : Bool :=
  match sel with
  | .all => true
  | .only a => decide (field = a)

/-- `filteredTransactions` (App.js lines 82-85). -/
def filteredTransactions (transactions : List Transaction)
    (filterType : Selector TxType) (filterCategory : Selector Category) : List Transaction :=
  transactions.filter (fun t => filterType.admits t.type && filterCategory.admits t.category)

/-- `totalIncome` (App.js lines 50-52). -/
def totalIncome (transactions : List Transaction) : JSNum :=
  (transactions.filter (fun t => decide (t.type = .income))).foldl
    (fun sum t => JSNum.add sum t.amount) (JSNum.fin 0)

/-- `totalExpense` (App.js lines 54-56). -/
def totalExpense (transactions : List Transaction) : JSNum :=
  (transactions.filter (fun t => decide (t.type = .expense))).foldl
    (fun sum t => JSNum.add sum t.amount) (JSNum.fin 0)

/-- `balance` (App.js line 58). -/
def balance (transactions : List Transaction) : JSNum :=
  JSNum.sub (totalIncome transactions) (totalExpense transactions)

/-- Own properties of a plain object, in insertion order. -/
abbrev JSObject (κ ν : Type) := List (κ × ν)

/-- Property read `o[k]`; `none` is `undefined`. -/
def JSObject.get {κ ν : Type} [DecidableEq κ] : JSObject κ ν → κ → Option ν
  | [], _ => none
  | (k', v') :: rest, k => if k' = k then some v' else JSObject.get rest k

/-- Property write `o[k] = v`: overwrites in place, or appends a new key. -/
def JSObject.set {κ ν : Type} [DecidableEq κ] : JSObject κ ν → κ → ν → JSObject κ ν
  | [], k, v => [(k, v)]
  | (k', v') :: rest, k, v =>
    if k' = k then (k, v) :: rest else (k', v') :: JSObject.set rest k v

/-- `Object.keys(o)`. -/
def JSObject.keys {κ ν : Type} (o : JSObject κ ν) : List κ := o.map Prod.fst

/-- `expenseByCategory` (App.js lines 89-95). -/
def expenseByCategory (transactions : List Transaction) : JSObject Category JSNum :=
  (transactions.filter (fun t => decide (t.type = .expense))).foldl
    (fun obj t =>
      JSObject.set obj t.category (JSNum.add (JSNum.orZero (JSObject.get obj t.category)) t.amount))
    []

/-! ## Sequences of ledger operations -/

/-- The ledger after `add(draft)`: the draft is in the form, then the form is submitted. -/
def add (ledger : List Transaction) (clock : Clock) (draft : Form) : List Transaction :=
  (handleSubmit clock { transactions := ledger, form := draft }).transactions

/-- A call on the ledger store. -/
inductive Op where
  | add (clock : Clock) (draft : Form)
  | remove (id : Int)

/-- One call applied to the ledger. -/
def step (ledger : List Transaction) : Op → List Transaction
  | .add clock draft => add ledger clock draft
  | .remove id => deleteTransaction ledger id

/-- The ledger reached from the empty ledger (App.js line 28) by a sequence of calls. -/
def run (ops : List Op) : List Transaction := ops.foldl step []

/-- The clock readings of the add calls of a sequence, in call order. -/
def readings : List Op → List Int
  | [] => []
  | .add clock _ :: ops => clock.now :: readings ops
  | .remove _ :: ops => readings ops

/-! ## JSON values, `JSON.stringify` and `JSON.parse` -/

/-- The values `JSON.parse` can produce.  The members of an object are its own
properties in insertion order (array-index keys, which ECMAScript enumerates
first, do not occur in the records of this program). -/
inductive JSVal where
  | null
  | bool (b : Bool)
  | num (x : JSNum)
  | str (s : String)
  | arr (xs : List JSVal)
  | obj (ps : List (String × JSVal))

mutual
/-- Decides the equality of two values. -/
def JSVal.decEq : (a b : JSVal) → Decidable (a = b)
  | .null, .null => isTrue rfl
  | .bool a, .bool b =>
    if h : a = b then isTrue (by rw [h]) else isFalse (fun e => by cases e; exact h rfl)
  | .num a, .num b =>
    if h : a = b then isTrue (by rw [h]) else isFalse (fun e => by cases e; exact h rfl)
  | .str a, .str b =>
    if h : a = b then isTrue (by rw [h]) else isFalse (fun e => by cases e; exact h rfl)
  | .arr a, .arr b =>
    match JSVal.decEqList a b with
    | isTrue h => isTrue (by rw [h])
    | isFalse h => isFalse (fun e => by cases e; exact h rfl)
  | .obj a, .obj b =>
    match JSVal.decEqMembers a b with
    | isTrue h => isTrue (by rw [h])
    | isFalse h => isFalse (fun e => by cases e; exact h rfl)
  | .null, .bool _ | .null, .num _ | .null, .str _ | .null, .arr _ | .null, .obj _
  | .bool _, .null | .bool _, .num _ | .bool _, .str _ | .bool _, .arr _ | .bool _, .obj _
  | .num _, .null | .num _, .bool _ | .num _, .str _ | .num _, .arr _ | .num _, .obj _
  | .str _, .null | .str _, .bool _ | .str _, .num _ | .str _, .arr _ | .str _, .obj _
  | .arr _, .null | .arr _, .bool _ | .arr _, .num _ | .arr _, .str _ | .arr _, .obj _
  | .obj _, .null | .obj _, .bool _ | .obj _, .num _ | .obj _, .str _ | .obj _, .arr _ =>
    isFalse (fun e => by cases e)
/-- Decides the equality of two lists of values. -/
def JSVal.decEqList : (a b : List JSVal) → Decidable (a = b)
  | [], [] => isTrue rfl
  | x :: xs, y :: ys =>
    match JSVal.decEq x y, JSVal.decEqList xs ys with
    | isTrue h, isTrue hs => isTrue (by rw [h, hs])
    | isFalse h, _ => isFalse (fun e => by cases e; exact h rfl)
    | _, isFalse hs => isFalse (fun e => by cases e; exact hs rfl)
  | [], _ :: _ | _ :: _, [] => isFalse (fun e => by cases e)
/-- Decides the equality of two member lists. -/
def JSVal.decEqMembers : (a b : List (String × JSVal)) → Decidable (a = b)
  | [], [] => isTrue rfl
  | (k, x) :: xs, (l, y) :: ys =>
    if hk : k = l then
      match JSVal.decEq x y, JSVal.decEqMembers xs ys with
      | isTrue h, isTrue hs => isTrue (by rw [hk, h, hs])
      | isFalse h, _ => isFalse (fun e => by cases e; exact h rfl)
      | _, isFalse hs => isFalse (fun e => by cases e; exact hs rfl)
    else isFalse (fun e => by cases e; exact hk rfl)
  | [], _ :: _ | _ :: _, [] => isFalse (fun e => by cases e)
end

instance : DecidableEq JSVal := JSVal.decEq

/-- The character of a decimal digit. -/
def digitChar (d : Nat) : Char := Char.ofNat (48 + d)

/-- The decimal digits of a natural number, most significant first (none for 0). -/
def natDigits : Nat → Nat → List Char
  | 0, _ => []
  | fuel + 1, n => if n = 0 then [] else natDigits fuel (n / 10) ++ [digitChar (n % 10)]

/-- The digits after the decimal point of `r / den` for `r < den`, until the
remainder is 0.  A binary64 value has a finite decimal expansion, which ends
within `fuel = den` digits; on other rationals the expansion is cut there. -/
def fractionDigits : Nat → Nat → Nat → List Char
  | 0, _, _ => []
  | fuel + 1, r, den =>
    if r = 0 then [] else digitChar (r * 10 / den) :: fractionDigits fuel (r * 10 % den) den

/-- Drops the zeros at the end of a run of digits. -/
def stripTrailingZeros (ds : List Char) : List Char :=
  (ds.reverse.dropWhile (fun c => c == '0')).reverse

/-- The number of zeros at the start of a run of digits. -/
def leadingZeros (ds : List Char) : Nat := (ds.takeWhile (fun c => c == '0')).length

/-- Number::toString, exponent form: the digits `s` of the significand and
`e = n - 1`: `d.ddde+x` or `d.ddde-x`. -/
def exponentForm (s : List Char) (e : Int) : List Char :=
  match s with
  | [] => []
  | d :: ds =>
    (d :: (if ds.isEmpty then [] else '.' :: ds)) ++
      'e' :: (if 0 ≤ e then '+' else '-') :: natDigits e.natAbs e.natAbs

/-- The text Number::toString gives to the decimal `q > 0`.  With `n` the position
of the decimal point and `k` the number of significant digits: plain digits when
`0 < n ≤ 21`, `0.000ddd` when `-6 < n ≤ 0`, exponent form otherwise. -/
def positiveToString (q : ℚ) : List Char :=
  let ip := q.num.toNat / q.den
  let r := q.num.toNat % q.den
  let intD := natDigits ip ip
  let fracD := fractionDigits q.den r q.den
  if ip ≠ 0 then
    if intD.length ≤ 21 then intD ++ (if fracD.isEmpty then [] else '.' :: fracD)
    else exponentForm (stripTrailingZeros (intD ++ fracD)) ((intD.length : Int) - 1)
  else
    if leadingZeros fracD < 6 then '0' :: '.' :: fracD
    else exponentForm (fracD.drop (leadingZeros fracD)) (-((leadingZeros fracD : Int) + 1))

/-- The number of zeros right after the decimal point of `q`, for `0 < q < 1`. -/
def fractionLeadingZeros : Nat → ℚ → Nat
  | 0, _ => 0
  | fuel + 1, q => if 1 ≤ q * 10 then 0 else fractionLeadingZeros fuel (q * 10) + 1

/-- The `n` with `10^(n-1) ≤ q < 10^n`, for `q > 0` (binary64 values need no more
than 323 zeros after the point). -/
def decimalExponent (q : ℚ) : Int :=
  if q.num.toNat / q.den ≠ 0 then
    ((natDigits (q.num.toNat / q.den) (q.num.toNat / q.den)).length : Int)
  else -(fractionLeadingZeros 400 q : Int)

/-- A decimal `s × 10^(n-k)` with `k` digits that reads back as the number of `q`:
of the two `k`-digit neighbours of `q`, one that rounds to the same binary64
value, the closer one if both do (the even `s` on a tie). -/
def shortestCandidate (q : ℚ) (k : Nat) : Option ℚ :=
  let n := decimalExponent q
  let scaled := scale10 q ((k : Int) - n)
  let lo := scaled.num.toNat / scaled.den
  let vlo := scale10 (lo : ℚ) (n - (k : Int))
  let vhi := scale10 ((lo + 1 : Nat) : ℚ) (n - (k : Int))
  let okLo := decide (0 < vlo) && decide (roundBinary64 vlo = roundBinary64 q)
  let okHi := decide (0 < vhi) && decide (roundBinary64 vhi = roundBinary64 q)
  if okLo && okHi then
    (if vhi - q < q - vlo then some vhi
     else if q - vlo < vhi - q then some vlo
     else if lo % 2 = 0 then some vlo else some vhi)
  else if okLo then some vlo
  else if okHi then some vhi
  else none

/-- The decimal with the fewest digits, from `k` digits on, that reads back as the
number of `q`; `q` itself when the fuel runs out (17 digits always do for a
binary64 value). -/
def shortestDecimal : Nat → Nat → ℚ → ℚ
  | 0, _, q => q
  | fuel + 1, k, q =>
    match shortestCandidate q k with
    | some v => v
    | none => shortestDecimal fuel (k + 1) q

/-- Number::toString (radix 10) of a finite number: the digits of the shortest
decimal that denotes it. -/
def numberToString (q : ℚ) : List Char :=
  if q = 0 then ['0']
  else if q < 0 then '-' :: positiveToString (shortestDecimal 17 1 (-q))
  else positiveToString (shortestDecimal 17 1 q)

/-- A lower-case hexadecimal digit. -/
def hexDigitChar (n : Nat) : Char := if n < 10 then Char.ofNat (48 + n) else Char.ofNat (87 + n)

/-- QuoteJSONString, one code point: the short escapes, `\u00xx` for the other
control characters, the character itself otherwise. -/
def quoteChar (c : Char) : List Char :=
  if c = '"' then ['\\', '"']
  else if c = '\\' then ['\\', '\\']
  else if c.toNat = 8 then ['\\', 'b']
  else if c.toNat = 9 then ['\\', 't']
  else if c.toNat = 10 then ['\\', 'n']
  else if c.toNat = 12 then ['\\', 'f']
  else if c.toNat = 13 then ['\\', 'r']
  else if c.toNat < 32 then
    ['\\', 'u', '0', '0', hexDigitChar (c.toNat / 16), hexDigitChar (c.toNat % 16)]
  else [c]

/-- The text between the quotes of QuoteJSONString. -/
def quoteBody : List Char → List Char
  | [] => []
  | c :: cs => quoteChar c ++ quoteBody cs

/-- QuoteJSONString. -/
def quoteJSONString (s : String) : List Char := '"' :: (quoteBody s.toList ++ ['"'])

mutual
/-- SerializeJSONProperty on a value: a number that is not finite is written `null`. -/
def stringifyValue : JSVal → List Char
  | .null => ['n', 'u', 'l', 'l']
  | .bool b => if b then ['t', 'r', 'u', 'e'] else ['f', 'a', 'l', 's', 'e']
  | .num (.fin q) => numberToString q
  | .num _ => ['n', 'u', 'l', 'l']
  | .str s => quoteJSONString s
  | .arr xs => '[' :: (stringifyElements xs ++ [']'])
  | .obj ps => '{' :: (stringifyMembers ps ++ ['}'])
/-- SerializeJSONArray: the elements separated by commas. -/
def stringifyElements : List JSVal → List Char
  | [] => []
  | [x] => stringifyValue x
  | x :: y :: rest => stringifyValue x ++ ',' :: stringifyElements (y :: rest)
/-- SerializeJSONObject: the members `"key":value` separated by commas. -/
def stringifyMembers : List (String × JSVal) → List Char
  | [] => []
  | [(k, x)] => quoteJSONString k ++ ':' :: stringifyValue x
  | (k, x) :: y :: rest =>
    quoteJSONString k ++ ':' :: (stringifyValue x ++ ',' :: stringifyMembers (y :: rest))
end

/-- `JSON.stringify(value)` with no replacer and no indentation. -/
def JSON.stringify (v : JSVal) : String := String.mk (stringifyValue v)

/-- The outcome of reading a prefix of a text. -/
inductive Parsed (α : Type) where
  | ok (value : α) (rest : List Char)
  | syntaxError
  | outOfFuel

/-- Applies a function to the value read. -/
def Parsed.map {α β : Type} (f : α → β) : Parsed α → Parsed β
  | .ok a rest => .ok (f a) rest
  | .syntaxError => .syntaxError
  | .outOfFuel => .outOfFuel

/-- JSON white space: space, tab, line feed, carriage return. -/
def isJSONWhiteSpace (c : Char) : Bool :=
  c.toNat == 0x20 || c.toNat == 0x9 || c.toNat == 0xA || c.toNat == 0xD

/-- Skips JSON white space. -/
def skipWhiteSpace (cs : List Char) : List Char := cs.dropWhile isJSONWhiteSpace

/-- The character of an escape `\c` other than `\u`. -/
def simpleEscape (e : Char) : Option Char :=
  if e = '"' then some '"'
  else if e = '\\' then some '\\'
  else if e = '/' then some '/'
  else if e = 'b' then some (Char.ofNat 8)
  else if e = 'f' then some (Char.ofNat 12)
  else if e = 'n' then some (Char.ofNat 10)
  else if e = 'r' then some (Char.ofNat 13)
  else if e = 't' then some (Char.ofNat 9)
  else none

/-- The value of four hexadecimal digits. -/
def hexValue4 (a b c d : Char) : Option Nat :=
  match digitValue 16 a, digitValue 16 b, digitValue 16 c, digitValue 16 d with
  | some w, some x, some y, some z => some (((w * 16 + x) * 16 + y) * 16 + z)
  | _, _, _, _ => none

/-- The character of an escaped code unit.  A surrogate code unit is no `Char`;
it is read as U+FFFD. -/
def codeUnitChar (n : Nat) : Char :=
  if 0xD800 ≤ n ∧ n ≤ 0xDFFF then Char.ofNat 0xFFFD else Char.ofNat n

/-- Reads a JSON string after its opening quote, up to and including the closing one. -/
def readStringBody : List Char → Parsed (List Char)
  | [] => .syntaxError
  | c :: cs =>
    if c = '"' then .ok [] cs
    else if c = '\\' then
      match cs with
      | [] => .syntaxError
      | e :: cs1 =>
        if e = 'u' then
          match cs1 with
          | h1 :: h2 :: h3 :: h4 :: cs2 =>
            match hexValue4 h1 h2 h3 h4 with
            | some n => (readStringBody cs2).map (fun s => codeUnitChar n :: s)
            | none => .syntaxError
          | _ => .syntaxError
        else
          match simpleEscape e with
          | some ch => (readStringBody cs1).map (fun s => ch :: s)
          | none => .syntaxError
    else if c.toNat < 32 then .syntaxError
    else (readStringBody cs).map (fun s => c :: s)

/-- The optional fraction of a JSON number, `. [0-9]+`: its digits and the text
after it; `none` when the point is followed by no digit. -/
def readFraction : List Char → Option (List Char × List Char)
  | [] => some ([], [])
  | c :: r =>
    if c = '.' then
      (if (r.takeWhile isDecDigit).isEmpty then none
       else some (r.takeWhile isDecDigit, r.dropWhile isDecDigit))
    else some ([], c :: r)

/-- The optional exponent of a JSON number, `[eE] [+-]? [0-9]+`: its value and
the text after it; `none` when the digits are missing. -/
def readExponent : List Char → Option (Int × List Char)
  | [] => some (0, [])
  | c :: r =>
    if c = 'e' ∨ c = 'E' then
      match r with
      | [] => none
      | s :: r1 =>
        let ds := if s = '+' ∨ s = '-' then r1 else s :: r1
        if (ds.takeWhile isDecDigit).isEmpty then none
        else
          some ((if s = '-' then -(digitsValue 10 (ds.takeWhile isDecDigit) : Int)
                 else (digitsValue 10 (ds.takeWhile isDecDigit) : Int)),
                ds.dropWhile isDecDigit)
    else some (0, c :: r)

/-- Reads a JSON number without its sign: `(0 | [1-9][0-9]*) (. [0-9]+)? ([eE] [+-]? [0-9]+)?`. -/
def readUnsignedNumber (cs : List Char) : Parsed ℚ :=
  let ip := cs.takeWhile isDecDigit
  if ip.isEmpty || (ip.head? == some '0' && decide (1 < ip.length)) then .syntaxError
  else
    match readFraction (cs.dropWhile isDecDigit) with
    | none => .syntaxError
    | some (fp, r2) =>
      match readExponent r2 with
      | none => .syntaxError
      | some (e, r3) => .ok (scale10 (digitsValue 10 (ip ++ fp)) (e - fp.length)) r3

/-- Reads a JSON number: an optional `-`, then the unsigned number; the value of
the text is rounded to binary64. -/
def readNumber : List Char → Parsed JSNum
  | [] => .syntaxError
  | c :: r =>
    if c = '-' then (readUnsignedNumber r).map (fun m => roundBinary64 (-m))
    else (readUnsignedNumber (c :: r)).map roundBinary64

/-- Builds the object of a member list: a repeated key keeps its first position
and its last value. -/
def membersToObject (ps : List (String × JSVal)) : List (String × JSVal) :=
  ps.foldl (fun o p => JSObject.set o p.1 p.2) []

mutual
/-- Reads a JSON value at the start of the text; the fuel bounds the calls. -/
def parseValue : Nat → List Char → Parsed JSVal
  | 0, _ => .outOfFuel
  | fuel + 1, cs =>
    match cs with
    | [] => .syntaxError
    | c :: r =>
      if c = '"' then (readStringBody r).map (fun s => JSVal.str (String.mk s))
      else if c = '[' then
        match skipWhiteSpace r with
        | [] => .syntaxError
        | d :: r1 =>
          if d = ']' then .ok (.arr []) r1
          else (parseElements fuel (d :: r1)).map JSVal.arr
      else if c = '{' then
        match skipWhiteSpace r with
        | [] => .syntaxError
        | d :: r1 =>
          if d = '}' then .ok (.obj []) r1
          else (parseMembers fuel (d :: r1)).map (fun ps => JSVal.obj (membersToObject ps))
      else if c = '-' ∨ isDecDigit c = true then (readNumber cs).map JSVal.num
      else
        match cs with
        | 'n' :: 'u' :: 'l' :: 'l' :: r1 => .ok .null r1
        | 't' :: 'r' :: 'u' :: 'e' :: r1 => .ok (.bool true) r1
        | 'f' :: 'a' :: 'l' :: 's' :: 'e' :: r1 => .ok (.bool false) r1
        | _ => .syntaxError
/-- Reads the elements of a non-empty array and its closing bracket. -/
def parseElements : Nat → List Char → Parsed (List JSVal)
  | 0, _ => .outOfFuel
  | fuel + 1, cs =>
    match parseValue fuel cs with
    | .ok v r =>
      match skipWhiteSpace r with
      | [] => .syntaxError
      | d :: r1 =>
        if d = ',' then (parseElements fuel (skipWhiteSpace r1)).map (fun vs => v :: vs)
        else if d = ']' then .ok [v] r1
        else .syntaxError
    | .syntaxError => .syntaxError
    | .outOfFuel => .outOfFuel
/-- Reads the members of a non-empty object and its closing brace. -/
def parseMembers : Nat → List Char → Parsed (List (String × JSVal))
  | 0, _ => .outOfFuel
  | fuel + 1, cs =>
    match cs with
    | [] => .syntaxError
    | q :: r =>
      if q = '"' then
        match readStringBody r with
        | .ok k r1 =>
          match skipWhiteSpace r1 with
          | [] => .syntaxError
          | col :: r2 =>
            if col = ':' then
              match parseValue fuel (skipWhiteSpace r2) with
              | .ok v r3 =>
                match skipWhiteSpace r3 with
                | [] => .syntaxError
                | d :: r4 =>
                  if d = ',' then
                    (parseMembers fuel (skipWhiteSpace r4)).map (fun ps => (String.mk k, v) :: ps)
                  else if d = '}' then .ok [(String.mk k, v)] r4
                  else .syntaxError
              | .syntaxError => .syntaxError
              | .outOfFuel => .outOfFuel
            else .syntaxError
        | .syntaxError => .syntaxError
        | .outOfFuel => .outOfFuel
      else .syntaxError
end

/-- What `JSON.parse` throws: a SyntaxError.  `nestingBound` stands for the parser
running out of fuel, which does not happen. -/
inductive JSError where
  | SyntaxError
  | nestingBound
  deriving DecidableEq

/-- Decides the equality of two outcomes of an effect. -/
instance : DecidableEq (Except JSError JSVal)
  | .ok a, .ok b => if h : a = b then isTrue (by rw [h]) else isFalse (fun e => by cases e; exact h rfl)
  | .error a, .error b =>
    if h : a = b then isTrue (by rw [h]) else isFalse (fun e => by cases e; exact h rfl)
  | .ok _, .error _ | .error _, .ok _ => isFalse (fun e => by cases e)

/-- `JSON.parse(text)` with no reviver: one value between optional white space.
The fuel `2 * length + 1` is never exhausted (`JSON.parse_ne_nestingBound`), so
the only error is the SyntaxError. -/
def JSON.parse (text : String) : Except JSError JSVal :=
  match parseValue (2 * text.toList.length + 1) (skipWhiteSpace text.toList) with
  | .ok v rest => if (skipWhiteSpace rest).isEmpty then .ok v else .error .SyntaxError
  | .syntaxError => .error .SyntaxError
  | .outOfFuel => .error .nestingBound

/-! ## Persistence: the two effects of the component -/

/-- The key of the storage slot (App.js line 25). -/
def STORAGE_KEY : String := "pfm_transactions_v1"

/-- The name a type `<option>` carries as its value. -/
def TxType.toString : TxType → String
  | .income => "income"
  | .expense => "expense"

/-- The name a category `<option>` carries as its value. -/
def Category.toString : Category → String
  | .Salary => "Salary"
  | .Food => "Food"
  | .Transport => "Transport"
  | .Shopping => "Shopping"
  | .Bills => "Bills"
  | .Entertainment => "Entertainment"
  | .Other => "Other"

/-- The record as a JavaScript object: the keys of `form` in their order, with
`amount` overwritten in place and `id` added last (App.js line 66). -/
def Transaction.toJS (t : Transaction) : JSVal :=
  .obj [("date", .str t.date), ("type", .str t.type.toString),
        ("category", .str t.category.toString), ("description", .str t.description),
        ("amount", .num t.amount), ("id", .num (.fin t.id))]

/-- The `transactions` state as a JavaScript array. -/
def ledgerToJS (transactions : List Transaction) : JSVal :=
  .arr (transactions.map Transaction.toJS)

/-- The contents of `localStorage`: string values under string keys. -/
abbrev Storage := JSObject String String

/-- The save effect (App.js lines 46-48):
`localStorage.setItem(STORAGE_KEY, JSON.stringify(transactions))`. -/
def saveEffect (storage : Storage) (transactions : List Transaction) : Storage :=
  JSObject.set storage STORAGE_KEY (JSON.stringify (ledgerToJS transactions))

/-- The load effect (App.js lines 40-43): the value of `transactions` after it,
which starts as `[]` (line 28), or the exception that leaves the effect. -/
def loadEffect (storage : Storage) : Except JSError JSVal :=
  match JSObject.get storage STORAGE_KEY with
  | none => .ok (.arr [])
  | some data => if strToBoolean data then JSON.parse data else .ok (.arr [])

/-- The form after the amount has been typed into the number input:
`setForm({ ...form, amount: e.target.value })` (App.js line 177). -/
def Form.entered (draft : Form) : Form :=
  { draft with amount := numberInputValue draft.amount }

/-- A call whose draft went through the form. -/
def Op.entered : Op → Op
  | .add clock draft => .add clock draft.entered
  | .remove id => .remove id

/-- The amount text of an add call is numeric: it coerces to a number other than
NaN. -/
def Op.numeric : Op → Bool
  | .add _ draft => decide (toNumber draft.amount ≠ JSNum.nan)
  | .remove _ => true

/-! ## The derived views as the specification words them -/

/-- The running total `acc` after the amounts of the records that satisfy `p`
have been added to it one after the other, in ledger order. -/
def sumFrom (p : Transaction → Bool) : JSNum → List Transaction → JSNum
  | acc, [] => acc
  | acc, t :: ts => sumFrom p (if p t then JSNum.add acc t.amount else acc) ts

/-- The sum of `amount` over the records that satisfy `p`: a total that starts at 0
and takes the amounts in ledger order (each addition is a binary64 addition, so
the order is part of the meaning). -/
def sumOfAmounts (p : Transaction → Bool) (L : List Transaction) : JSNum :=
  sumFrom p (JSNum.fin 0) L

/-- The two adds of the example scenario: a paycheck of 5000, then groceries for 150. -/
def scenario : List Op :=
  [.add ⟨1704067200000, "2024-01-01"⟩ ⟨"2024-01-01", .income, .Salary, "Paycheck", "5000"⟩,
   .add ⟨1704153600000, "2024-01-02"⟩ ⟨"2024-01-02", .expense, .Food, "Groceries", "150"⟩]

/-! ## Vocabulary of the statements about numbers -/

/-- A number that is not negative: `+Infinity`, or a finite number `≥ 0`. -/
def JSNum.NonNeg (x : JSNum) : Prop := x = JSNum.posInf ∨ ∃ r : ℚ, 0 ≤ r ∧ x = JSNum.fin r

/-- A finite Number value: a rational that rounding to binary64 leaves unchanged. -/
def JSNum.IsBinary64 : JSNum → Prop
  | .fin q => roundBinary64 q = JSNum.fin q
  | _ => False

/-- Decides whether a number is a finite Number value. -/
instance : DecidablePred JSNum.IsBinary64
  | .fin q => inferInstanceAs (Decidable (roundBinary64 q = JSNum.fin q))
  | .nan => isFalse (fun h => h)
  | .posInf => isFalse (fun h => h)
  | .negInf => isFalse (fun h => h)

/-- No character of a number can start the text: not a digit, `.`, `e` or `E`. -/
def NumberEnd (rest : List Char) : Prop :=
  ∀ c, rest.head? = some c → isDecDigit c = false ∧ c ≠ '.' ∧ c ≠ 'e' ∧ c ≠ 'E'

/-- The text of an optional fraction. -/
def fractionText (fp : List Char) : List Char := if fp.isEmpty then [] else '.' :: fp

/-- The text of an optional exponent: its sign and digits. -/
def exponentText : Option (Bool × List Char) → List Char
  | none => []
  | some (negative, ep) => 'e' :: (if negative then '-' else '+') :: ep

/-- The value of an optional exponent. -/
def exponentValue : Option (Bool × List Char) → Int
  | none => 0
  | some (negative, ep) => if negative then -(digitsValue 10 ep : Int) else (digitsValue 10 ep : Int)

/-! ## Helper lemmas: truthiness and comparisons -/

theorem strToBoolean_of_ne_empty {s : String} (h : s ≠ "") : strToBoolean s = true := by
  cases s with
  | mk data =>
    cases data with
    | nil => exact absurd rfl h
    | cons c cs => rfl

theorem strToBoolean_eq_false_iff (s : String) : strToBoolean s = false ↔ s = "" := by
  cases s with
  | mk data =>
    cases data with
    | nil => exact ⟨fun _ => rfl, fun _ => rfl⟩
    | cons c cs =>
      constructor
      · intro h; simp [strToBoolean, String.toList] at h
      · intro h; exact absurd (congrArg String.data h) (by simp)

theorem JSNum.le_eq_false_of_lt {x y : JSNum} (h : JSNum.lt y x = true) : JSNum.le x y = false := by
  unfold JSNum.lt at h
  unfold JSNum.le
  cases hxy : JSNum.lessThan y x with
  | none => rfl
  | some b =>
    cases b with
    | true => rfl
    | false => rw [hxy] at h; exact absurd h (by decide)

theorem rejects_eq_false {draft : Form} (hdesc : draft.description ≠ "")
    (hpos : JSNum.lt (JSNum.fin 0) (toNumber draft.amount) = true) : rejects draft = false := by
  unfold rejects
  rw [strToBoolean_of_ne_empty hdesc, JSNum.le_eq_false_of_lt hpos]
  rfl

theorem rejects_eq_true {draft : Form}
    (h : draft.description = "" ∨ JSNum.le (toNumber draft.amount) (JSNum.fin 0) = true) :
    rejects draft = true := by
  unfold rejects
  rcases h with h | h
  · rw [(strToBoolean_eq_false_iff _).2 h]; rfl
  · rw [h]; simp

theorem add_of_rejects {draft : Form} (L : List Transaction) (clock : Clock)
    (h : rejects draft = true) : add L clock draft = L := by
  simp [add, handleSubmit, h]

theorem add_of_not_rejects {draft : Form} (L : List Transaction) (clock : Clock)
    (h : rejects draft = false) :
    add L clock draft = L ++
      [{ date := draft.date, type := draft.type, category := draft.category,
         description := draft.description, amount := toNumber draft.amount,
         id := clock.now }] := by
  simp [add, handleSubmit, h]

/-! ## C1: a valid draft is appended -/

/-- C1: for every ledger `L`, clock reading and draft whose description is non-empty
and whose amount text coerces to a number greater than 0, `add` returns a ledger of
length `|L| + 1` whose first `|L|` records are those of `L` in order and whose last
record carries the date, type, category and description of the draft and the
coerced amount. -/
theorem add_valid_appends (L : List Transaction) (clock : Clock) (draft : Form)
    (hdesc : draft.description ≠ "")
    (hpos : JSNum.lt (JSNum.fin 0) (toNumber draft.amount) = true) :
    (add L clock draft).length = L.length + 1 ∧
    (add L clock draft).take L.length = L ∧
    ∃ t : Transaction, (add L clock draft).drop L.length = [t] ∧
      t.date = draft.date ∧ t.type = draft.type ∧ t.category = draft.category ∧
      t.description = draft.description ∧ t.amount = toNumber draft.amount := by
  rw [add_of_not_rejects L clock (rejects_eq_false hdesc hpos)]
  refine ⟨by simp, by simp, ?_⟩
  exact ⟨{ date := draft.date, type := draft.type, category := draft.category,
           description := draft.description, amount := toNumber draft.amount,
           id := clock.now }, List.drop_left _ _, rfl, rfl, rfl, rfl, rfl⟩

/-- C1 at a concrete input: a paycheck of 5000 added to a ledger of one record. -/
theorem add_valid_appends_witness :
    (add [⟨"2023-12-31", .expense, .Bills, "Rent", .fin 900, 1703980800000⟩]
        ⟨1704067200000, "2024-01-01"⟩
        ⟨"2024-01-01", .income, .Salary, "Paycheck", "5000"⟩).length = 1 + 1 ∧
    (add [⟨"2023-12-31", .expense, .Bills, "Rent", .fin 900, 1703980800000⟩]
        ⟨1704067200000, "2024-01-01"⟩
        ⟨"2024-01-01", .income, .Salary, "Paycheck", "5000"⟩).drop 1 =
      [⟨"2024-01-01", .income, .Salary, "Paycheck", .fin 5000, 1704067200000⟩] := by
  have h := add_valid_appends
    [⟨"2023-12-31", .expense, .Bills, "Rent", .fin 900, 1703980800000⟩]
    ⟨1704067200000, "2024-01-01"⟩
    ⟨"2024-01-01", .income, .Salary, "Paycheck", "5000"⟩ (by decide) (by decide!)
  exact ⟨h.1, by decide!⟩

/-! ## C2: an invalid draft changes nothing -/

/-- C2: if the description of the draft is the empty string or its amount text
coerces to a number less than or equal to 0, `handleSubmit` returns the state it was
given: the ledger is unchanged and the form is not cleared. -/
theorem handleSubmit_invalid_noop (clock : Clock) (s : AppState)
    (h : s.form.description = "" ∨ JSNum.le (toNumber s.form.amount) (JSNum.fin 0) = true) :
    handleSubmit clock s = s ∧ add s.transactions clock s.form = s.transactions ∧
    (add s.transactions clock s.form).length = s.transactions.length := by
  have hr := rejects_eq_true h
  have ha := add_of_rejects s.transactions clock hr
  refine ⟨by simp [handleSubmit, hr], ha, by rw [ha]⟩

/-- C2 at concrete inputs: the amount texts `-5`, `0` and the empty text, and an
empty description. -/
theorem handleSubmit_invalid_noop_witness :
    handleSubmit ⟨1704067200000, "2024-01-01"⟩
        ⟨[], ⟨"2024-01-01", .expense, .Food, "Groceries", "-5"⟩⟩ =
      ⟨[], ⟨"2024-01-01", .expense, .Food, "Groceries", "-5"⟩⟩ ∧
    handleSubmit ⟨1704067200000, "2024-01-01"⟩
        ⟨[], ⟨"2024-01-01", .expense, .Food, "Groceries", "0"⟩⟩ =
      ⟨[], ⟨"2024-01-01", .expense, .Food, "Groceries", "0"⟩⟩ ∧
    handleSubmit ⟨1704067200000, "2024-01-01"⟩
        ⟨[], ⟨"2024-01-01", .expense, .Food, "Groceries", ""⟩⟩ =
      ⟨[], ⟨"2024-01-01", .expense, .Food, "Groceries", ""⟩⟩ ∧
    handleSubmit ⟨1704067200000, "2024-01-01"⟩
        ⟨[], ⟨"2024-01-01", .expense, .Food, "", "150"⟩⟩ =
      ⟨[], ⟨"2024-01-01", .expense, .Food, "", "150"⟩⟩ :=
  ⟨(handleSubmit_invalid_noop _ _ (Or.inr (by decide!))).1,
   (handleSubmit_invalid_noop _ _ (Or.inr (by decide!))).1,
   (handleSubmit_invalid_noop _ _ (Or.inr (by decide!))).1,
   (handleSubmit_invalid_noop _ _ (Or.inl (by decide))).1⟩

/-! ## C5: removal by id -/

theorem deleteTransaction_eq_filter (L : List Transaction) (i : Int) :
    deleteTransaction L i = L.filter (fun t => decide (t.id ≠ i)) := by
  unfold deleteTransaction
  congr 1
  funext t
  by_cases ht : t.id = i <;> simp [ht]

theorem mem_deleteTransaction (L : List Transaction) (i : Int) (t : Transaction) :
    t ∈ deleteTransaction L i ↔ t ∈ L ∧ t.id ≠ i := by
  rw [deleteTransaction_eq_filter]; simp

theorem deleteTransaction_sublist (L : List Transaction) (i : Int) :
    (deleteTransaction L i).Sublist L := by
  rw [deleteTransaction_eq_filter]; exact List.filter_sublist L

/-- C5: `remove(i)` returns exactly the records of `L` whose id is not `i`, in their
original relative order and unchanged; if no record of `L` has id `i` the result
is `L`. -/
theorem deleteTransaction_spec (L : List Transaction) (i : Int) :
    deleteTransaction L i = L.filter (fun t => decide (t.id ≠ i)) ∧
    (deleteTransaction L i).Sublist L ∧
    (∀ t, t ∈ deleteTransaction L i ↔ t ∈ L ∧ t.id ≠ i) ∧
    ((∀ t ∈ L, t.id ≠ i) → deleteTransaction L i = L) := by
  refine ⟨deleteTransaction_eq_filter L i, deleteTransaction_sublist L i,
    mem_deleteTransaction L i, ?_⟩
  intro hall
  rw [deleteTransaction_eq_filter, List.filter_eq_self]
  intro t ht
  simpa using hall t ht

/-! ## C9: the filtered list -/

/-- C9: `filtered(tf, cf)` is the subsequence of `L`, in ledger order, of the records
`r` with (`tf` is "all" or `r.type` is `tf`) and (`cf` is "all" or `r.category` is
`cf`); `filtered("all", "all")` is `L` itself. -/
theorem filteredTransactions_spec (L : List Transaction)
    (tf : Selector TxType) (cf : Selector Category) :
    filteredTransactions L tf cf =
      L.filter (fun r => decide ((tf = .all ∨ tf = .only r.type) ∧
                                 (cf = .all ∨ cf = .only r.category))) ∧
    (filteredTransactions L tf cf).Sublist L ∧
    (∀ r, r ∈ filteredTransactions L tf cf ↔
      r ∈ L ∧ (tf = .all ∨ tf = .only r.type) ∧ (cf = .all ∨ cf = .only r.category)) ∧
    filteredTransactions L .all .all = L := by
  have h : filteredTransactions L tf cf =
      L.filter (fun r => decide ((tf = .all ∨ tf = .only r.type) ∧
                                 (cf = .all ∨ cf = .only r.category))) := by
    unfold filteredTransactions
    congr 1
    funext r
    cases tf <;> cases cf <;> simp [Selector.admits, eq_comm]
  refine ⟨h, ?_, ?_, ?_⟩
  · rw [h]; exact List.filter_sublist L
  · intro r; rw [h]; simp
  · simp [filteredTransactions, Selector.admits]

/-! ## Helper lemmas: arithmetic of `JSNum` -/

theorem jsLt_fin (a b : ℚ) : JSNum.lt (JSNum.fin a) (JSNum.fin b) = decide (a < b) := by
  by_cases h : a < b <;> simp [JSNum.lt, JSNum.lessThan, h]

theorem jsLe_fin (a b : ℚ) : JSNum.le (JSNum.fin a) (JSNum.fin b) = decide (a ≤ b) := by
  by_cases h : b < a
  · simp [JSNum.le, JSNum.lessThan, h]
  · simp [JSNum.le, JSNum.lessThan, h, not_lt.1 h]

theorem jsPos_iff (x : JSNum) :
    JSNum.lt (JSNum.fin 0) x = true ↔ x = JSNum.posInf ∨ ∃ q : ℚ, 0 < q ∧ x = JSNum.fin q := by
  cases x with
  | fin q => simp [jsLt_fin]
  | nan => simp [JSNum.lt, JSNum.lessThan]
  | posInf => simp [JSNum.lt, JSNum.lessThan]
  | negInf => simp [JSNum.lt, JSNum.lessThan]

theorem jsPos_of_not_le {x : JSNum} (hn : x ≠ JSNum.nan)
    (h : JSNum.le x (JSNum.fin 0) = false) : JSNum.lt (JSNum.fin 0) x = true := by
  cases x with
  | fin q => rw [jsLe_fin] at h; rw [jsLt_fin]; simpa using h
  | nan => exact absurd rfl hn
  | posInf => rfl
  | negInf => simp [JSNum.le, JSNum.lessThan] at h

theorem jsLe_of_not_pos {x : JSNum} (hn : x ≠ JSNum.nan)
    (h : JSNum.lt (JSNum.fin 0) x = false) : JSNum.le x (JSNum.fin 0) = true := by
  cases x with
  | fin q => rw [jsLt_fin] at h; rw [jsLe_fin]; simpa using h
  | nan => exact absurd rfl hn
  | posInf => simp [JSNum.lt, JSNum.lessThan] at h
  | negInf => rfl

theorem pow2_pos (e : Int) : 0 < pow2 e := by
  unfold pow2
  split_ifs <;> positivity

theorem roundBinary64_ne_nan (q : ℚ) : roundBinary64 q ≠ JSNum.nan := by
  unfold roundBinary64
  simp only
  split_ifs <;> simp

/-- Rounding a number that is not negative gives `+Infinity` or a finite number
that is not negative. -/
theorem roundBinary64_nonNeg (q : ℚ) (hq : 0 ≤ q) : (roundBinary64 q).NonNeg := by
  unfold roundBinary64
  simp only
  have hnot : ¬ q < 0 := not_lt.2 hq
  split_ifs with h0 h1
  · exact Or.inr ⟨0, le_rfl, rfl⟩
  · exact Or.inl rfl
  · refine Or.inr ⟨_, ?_, rfl⟩
    exact mul_nonneg (Nat.cast_nonneg _) (le_of_lt (pow2_pos _))

/-- A total that is not negative stays so when a positive amount is added. -/
theorem jsNonNeg_add {x y : JSNum} (hx : x.NonNeg)
    (hy : JSNum.lt (JSNum.fin 0) y = true) : (JSNum.add x y).NonNeg := by
  rw [jsPos_iff] at hy
  rcases hx with rfl | ⟨a, ha, rfl⟩ <;> rcases hy with rfl | ⟨b, hb, rfl⟩
  · exact Or.inl rfl
  · exact Or.inl rfl
  · exact Or.inl rfl
  · exact roundBinary64_nonNeg (a + b) (by linarith)

/-- On a total that is not negative, `total || 0` is the total. -/
theorem jsOrZero_of_nonNeg {x : JSNum} (hx : x.NonNeg) : JSNum.orZero (some x) = x := by
  rcases hx with rfl | ⟨a, ha, rfl⟩
  · rfl
  · by_cases h0 : a = 0
    · subst h0; simp [JSNum.orZero, JSNum.toBoolean]
    · simp [JSNum.orZero, JSNum.toBoolean, h0]

/-! ## Helper lemmas: sequences of calls -/

theorem run_snoc (ops : List Op) (op : Op) : run (ops ++ [op]) = step (run ops) op := by
  simp [run, List.foldl_append]

theorem readings_append (ops ops' : List Op) :
    readings (ops ++ ops') = readings ops ++ readings ops' := by
  induction ops with
  | nil => rfl
  | cons op ops ih =>
    cases op with
    | add clock draft => simp [readings, ih]
    | remove id => simp [readings, ih]

theorem add_cases (L : List Transaction) (clock : Clock) (draft : Form) :
    (rejects draft = true ∧ add L clock draft = L) ∨
    (rejects draft = false ∧ add L clock draft = L ++
      [{ date := draft.date, type := draft.type, category := draft.category,
         description := draft.description, amount := toNumber draft.amount,
         id := clock.now }]) := by
  cases h : rejects draft with
  | true => exact Or.inl ⟨rfl, add_of_rejects L clock h⟩
  | false => exact Or.inr ⟨rfl, add_of_not_rejects L clock h⟩

theorem ids_mem_readings (ops : List Op) : ∀ t ∈ run ops, t.id ∈ readings ops := by
  induction ops using List.reverseRecOn with
  | nil => intro t ht; simp [run] at ht
  | append_singleton ops op ih =>
    intro t ht
    rw [run_snoc] at ht
    rw [readings_append]
    cases op with
    | add clock draft =>
      simp only [step] at ht
      rcases add_cases (run ops) clock draft with ⟨_, h⟩ | ⟨_, h⟩
      · rw [h] at ht; simp [readings, ih t ht]
      · rw [h] at ht
        rcases List.mem_append.1 ht with ht | ht
        · simp [readings, ih t ht]
        · simp at ht; subst ht; simp [readings]
    | remove id =>
      simp only [step] at ht
      have := (mem_deleteTransaction (run ops) id t).1 ht
      simp [readings, ih t this.1]

theorem ids_nodup_of_increasing (ops : List Op) (h : (readings ops).Pairwise (· < ·)) :
    ((run ops).map Transaction.id).Nodup := by
  induction ops using List.reverseRecOn with
  | nil => simp [run]
  | append_singleton ops op ih =>
    rw [readings_append, List.pairwise_append] at h
    obtain ⟨h1, _, h3⟩ := h
    rw [run_snoc]
    cases op with
    | add clock draft =>
      simp only [step]
      rcases add_cases (run ops) clock draft with ⟨_, he⟩ | ⟨_, he⟩
      · rw [he]; exact ih h1
      · rw [he, List.map_append, List.nodup_append]
        refine ⟨ih h1, by simp, ?_⟩
        intro a ha hb
        simp only [List.map_cons, List.map_nil, List.mem_singleton] at hb
        rcases List.mem_map.1 ha with ⟨t, ht, rfl⟩
        have hlt := h3 t.id (ids_mem_readings ops t ht) clock.now (by simp [readings])
        omega
    | remove id =>
      simp only [step]
      exact (ih h1).sublist ((deleteTransaction_sublist (run ops) id).map _)

/-! ## C3: distinct ids -/

/-- C3 as stated fails: two valid adds at the same clock reading (the readings are
non-decreasing) leave two records with the same id. -/
theorem ids_not_distinct_same_reading :
    ¬ ∀ ops : List Op, (readings ops).Pairwise (· ≤ ·) →
        ((run ops).map Transaction.id).Nodup := by
  intro h
  have h2 := h [.add ⟨1704067200000, "2024-01-01"⟩
                  ⟨"2024-01-01", .income, .Salary, "Paycheck", "5000"⟩,
                .add ⟨1704067200000, "2024-01-01"⟩
                  ⟨"2024-01-01", .expense, .Food, "Groceries", "150"⟩] (by decide)
  revert h2
  decide!

/-- C3, amended: when the clock readings of the add calls are strictly increasing,
every ledger reached from the empty ledger by add and remove calls has pairwise
distinct ids, and the reading of a later add differs from every id in the ledger. -/
theorem ids_distinct (ops : List Op) (h : (readings ops).Pairwise (· < ·)) :
    ((run ops).map Transaction.id).Nodup ∧
    ∀ clock : Clock, (∀ r ∈ readings ops, r < clock.now) →
      ∀ t ∈ run ops, t.id ≠ clock.now := by
  refine ⟨ids_nodup_of_increasing ops h, ?_⟩
  intro clock hc t ht
  have := hc t.id (ids_mem_readings ops t ht)
  omega

/-- C3 amended, at a concrete input: the two adds of the scenario, one day apart. -/
theorem ids_distinct_witness :
    ((run scenario).map Transaction.id).Nodup ∧
    ∀ t ∈ run scenario, t.id ≠ 1704240000000 :=
  ⟨(ids_distinct scenario (by decide)).1,
   (ids_distinct scenario (by decide)).2 ⟨1704240000000, "2024-01-03"⟩ (by decide)⟩

/-! ## C4: stored amounts -/

theorem amounts_pos_of_numeric (ops : List Op)
    (h : ∀ op ∈ ops, op.numeric = true) :
    ∀ t ∈ run ops, JSNum.lt (JSNum.fin 0) t.amount = true := by
  induction ops using List.reverseRecOn with
  | nil => intro t ht; simp [run] at ht
  | append_singleton ops op ih =>
    have ih' := ih (fun op hm => h op (List.mem_append_left _ hm))
    intro t ht
    rw [run_snoc] at ht
    cases op with
    | add clock draft =>
      simp only [step] at ht
      rcases add_cases (run ops) clock draft with ⟨_, he⟩ | ⟨hr, he⟩
      · rw [he] at ht; exact ih' t ht
      · rw [he] at ht
        rcases List.mem_append.1 ht with ht | ht
        · exact ih' t ht
        · simp only [List.mem_singleton] at ht
          subst ht
          have hn : toNumber draft.amount ≠ JSNum.nan := by
            simpa [Op.numeric] using h (.add clock draft) (by simp)
          unfold rejects at hr
          simp only [Bool.or_eq_false_iff] at hr
          exact jsPos_of_not_le hn hr.2
    | remove id =>
      simp only [step] at ht
      exact ih' t ((mem_deleteTransaction (run ops) id t).1 ht).1

theorem numberInputValue_numeric (typed : String) :
    toNumber (numberInputValue typed) ≠ JSNum.nan := by
  unfold numberInputValue
  split_ifs with h
  · simp only [Bool.and_eq_true] at h
    intro hn
    rw [hn] at h
    exact absurd h.2 (by decide)
  · decide!

theorem entered_numeric (ops : List Op) : ∀ op ∈ ops.map Op.entered, op.numeric = true := by
  intro op hop
  obtain ⟨o, _, rfl⟩ := List.mem_map.1 hop
  cases o with
  | add clock draft =>
    simp only [Op.entered, Op.numeric, Form.entered, decide_eq_true_eq]
    exact numberInputValue_numeric draft.amount
  | remove id => rfl

theorem toNumber_entered_not_pos (text : String)
    (h : JSNum.lt (JSNum.fin 0) (toNumber text) = false) :
    JSNum.lt (JSNum.fin 0) (toNumber (numberInputValue text)) = false := by
  unfold numberInputValue
  split_ifs
  · exact h
  · decide!

/-- C4: in every ledger reached from the empty ledger by add and remove calls with
arbitrary draft texts typed into the form, every stored amount is a number greater
than 0; and add stores nothing for a draft whose amount text does not coerce to a
number greater than 0, text that is not numeric at all included (the number input
hands the empty string over for it). -/
theorem amounts_positive (ops : List Op) :
    (∀ t ∈ run (ops.map Op.entered), JSNum.lt (JSNum.fin 0) t.amount = true) ∧
    (∀ (L : List Transaction) (clock : Clock) (draft : Form),
      JSNum.lt (JSNum.fin 0) (toNumber draft.amount) = false →
      add L clock draft.entered = L) ∧
    numberInputValue "abc" = "" ∧ numberInputValue "1e400" = "" ∧
    numberInputValue "-5" = "-5" ∧ numberInputValue "19.99" = "19.99" := by
  refine ⟨amounts_pos_of_numeric _ (entered_numeric ops), ?_, by decide!, by decide!,
    by decide!, by decide!⟩
  intro L clock draft hl
  have hn : toNumber draft.entered.amount ≠ JSNum.nan := numberInputValue_numeric draft.amount
  have hl' : JSNum.lt (JSNum.fin 0) (toNumber draft.entered.amount) = false :=
    toNumber_entered_not_pos draft.amount hl
  exact add_of_rejects _ clock (rejects_eq_true (Or.inr (jsLe_of_not_pos hn hl')))

/-- C4 at concrete inputs: the scenario, then drafts whose amount texts are `abc`,
`-5` and `1e-400` (which `Number` reads as 0); none is stored. -/
theorem amounts_positive_witness :
    (∀ t ∈ run (scenario.map Op.entered), JSNum.lt (JSNum.fin 0) t.amount = true) ∧
    run ((scenario ++
      [Op.add ⟨1704240000000, "2024-01-03"⟩ ⟨"2024-01-03", .expense, .Food, "Lunch", "abc"⟩,
       Op.add ⟨1704240000001, "2024-01-03"⟩ ⟨"2024-01-03", .expense, .Food, "Refund", "-5"⟩,
       Op.add ⟨1704240000002, "2024-01-03"⟩ ⟨"2024-01-03", .expense, .Food, "Dust", "1e-400"⟩]).map
        Op.entered) = run scenario :=
  ⟨(amounts_positive scenario).1, by decide!⟩

/-! ## Helper lemmas: sums -/

theorem foldl_filter_eq_sumFrom (p : Transaction → Bool) (L : List Transaction) (acc : JSNum) :
    (L.filter p).foldl (fun sum t => JSNum.add sum t.amount) acc = sumFrom p acc L := by
  induction L generalizing acc with
  | nil => rfl
  | cons t ts ih =>
    by_cases h : p t = true
    · simp [List.filter_cons, h, sumFrom, ih]
    · simp [List.filter_cons, h, sumFrom, ih]

theorem sumFrom_append (p : Transaction → Bool) (A B : List Transaction) (acc : JSNum) :
    sumFrom p acc (A ++ B) = sumFrom p (sumFrom p acc A) B := by
  induction A generalizing acc with
  | nil => rfl
  | cons t ts ih => simp [sumFrom, ih]

theorem sumFrom_filter (p r : Transaction → Bool) (L : List Transaction) (acc : JSNum) :
    sumFrom r acc (L.filter p) = sumFrom (fun t => p t && r t) acc L := by
  induction L generalizing acc with
  | nil => rfl
  | cons t ts ih =>
    by_cases h : p t = true
    · simp [List.filter_cons, h, sumFrom, ih]
    · simp [List.filter_cons, h, sumFrom, ih]

theorem sumFrom_of_filter_nil (p : Transaction → Bool) (E : List Transaction) (acc : JSNum)
    (h : E.filter p = []) : sumFrom p acc E = acc := by
  induction E generalizing acc with
  | nil => rfl
  | cons t ts ih =>
    by_cases ht : p t = true
    · simp [List.filter_cons, ht] at h
    · simp only [List.filter_cons, ht, Bool.false_eq_true, if_false] at h
      simp [sumFrom, ht, ih acc h]

theorem sumFrom_nonNeg (p : Transaction → Bool) (E : List Transaction) (acc : JSNum)
    (hacc : acc.NonNeg) (hpos : ∀ t ∈ E, JSNum.lt (JSNum.fin 0) t.amount = true) :
    (sumFrom p acc E).NonNeg := by
  induction E generalizing acc with
  | nil => exact hacc
  | cons t ts ih =>
    simp only [sumFrom]
    apply ih _ _ (fun x hx => hpos x (List.mem_cons_of_mem _ hx))
    split_ifs
    · exact jsNonNeg_add hacc (hpos t (by simp))
    · exact hacc

/-! ## C10: the totals -/

/-- C10: for every ledger reached from the empty ledger by add and remove calls,
`totalIncome` is the sum of the amounts of the records now in the ledger with type
income, `totalExpense` that of the records with type expense (the amounts added in
ledger order), and `balance` is `totalIncome - totalExpense`; in the two-add
scenario they are 5000, 150 and 4850. -/
theorem totals_spec (ops : List Op) :
    totalIncome (run ops) = sumOfAmounts (fun t => decide (t.type = .income)) (run ops) ∧
    totalExpense (run ops) = sumOfAmounts (fun t => decide (t.type = .expense)) (run ops) ∧
    balance (run ops) = JSNum.sub (totalIncome (run ops)) (totalExpense (run ops)) ∧
    totalIncome (run scenario) = JSNum.fin 5000 ∧
    totalExpense (run scenario) = JSNum.fin 150 ∧
    balance (run scenario) = JSNum.fin 4850 :=
  ⟨foldl_filter_eq_sumFrom _ _ _, foldl_filter_eq_sumFrom _ _ _, rfl,
   by decide!, by decide!, by decide!⟩

/-- The totals are binary64 sums: incomes of 0.1, 0.2 and 0.3 total
0.6000000000000001, the value `0.1 + 0.2 + 0.3` has in the browser. -/
theorem totalIncome_rounds :
    totalIncome (run
      [.add ⟨1704067200000, "2024-01-01"⟩ ⟨"2024-01-01", .income, .Salary, "Tip", "0.1"⟩,
       .add ⟨1704067200001, "2024-01-01"⟩ ⟨"2024-01-01", .income, .Salary, "Tip", "0.2"⟩,
       .add ⟨1704067200002, "2024-01-01"⟩ ⟨"2024-01-01", .income, .Salary, "Tip", "0.3"⟩]) =
      JSNum.fin (1351079888211149 / 2251799813685248) ∧
    numberToString (1351079888211149 / 2251799813685248) = "0.6000000000000001".toList := by
  decide!

/-! ## Helper lemmas: objects -/

theorem JSObject.get_set {κ ν : Type} [DecidableEq κ] (o : JSObject κ ν) (k k' : κ) (v : ν) :
    JSObject.get (JSObject.set o k v) k' = if k = k' then some v else JSObject.get o k' := by
  induction o with
  | nil => simp [JSObject.set, JSObject.get]
  | cons p rest ih =>
    obtain ⟨a, b⟩ := p
    by_cases hak : a = k
    · subst hak
      by_cases hk : a = k' <;> simp [JSObject.set, JSObject.get, hk]
    · by_cases hk : k = k'
      · subst hk
        simp [JSObject.set, JSObject.get, hak, ih]
      · have hk' : ¬ k' = k := fun h => hk h.symm
        by_cases hak' : a = k'
        · subst hak'
          simp [JSObject.set, JSObject.get, hk', hk]
        · simp [JSObject.set, JSObject.get, hak, hak', hk, ih]

theorem JSObject.mem_keys_iff {κ ν : Type} [DecidableEq κ] (o : JSObject κ ν) (k : κ) :
    k ∈ JSObject.keys o ↔ JSObject.get o k ≠ none := by
  induction o with
  | nil => simp [JSObject.keys, JSObject.get]
  | cons p rest ih =>
    obtain ⟨a, b⟩ := p
    by_cases hak : a = k
    · simp [JSObject.keys, JSObject.get, hak]
    · have ih' : k ∈ List.map Prod.fst rest ↔ JSObject.get rest k ≠ none := ih
      simp only [JSObject.keys, List.map_cons, List.mem_cons, JSObject.get, hak, if_false]
      rw [ih']
      constructor
      · rintro (h | h)
        · exact absurd h.symm hak
        · exact h
      · intro h; exact Or.inr h

/-- What the loop of `expenseByCategory` has built after the expense records `E`:
under each category of `E`, the sum of the amounts of its records. -/
theorem expense_loop_get (E : List Transaction)
    (hpos : ∀ t ∈ E, JSNum.lt (JSNum.fin 0) t.amount = true) (c : Category) :
    JSObject.get
      (E.foldl (fun obj t => JSObject.set obj t.category
        (JSNum.add (JSNum.orZero (JSObject.get obj t.category)) t.amount)) []) c =
      if E.filter (fun t => decide (t.category = c)) = [] then none
      else some (sumOfAmounts (fun t => decide (t.category = c)) E) := by
  induction E using List.reverseRecOn with
  | nil => simp [JSObject.get]
  | append_singleton E t ih =>
    have hposE : ∀ x ∈ E, JSNum.lt (JSNum.fin 0) x.amount = true :=
      fun x hx => hpos x (List.mem_append_left _ hx)
    have ih' := ih hposE
    rw [List.foldl_append]
    simp only [List.foldl_cons, List.foldl_nil]
    rw [JSObject.get_set]
    by_cases hc : t.category = c
    · subst hc
      rw [if_pos rfl, ih']
      have hne : List.filter (fun x => decide (x.category = t.category)) (E ++ [t]) ≠ [] := by
        simp [List.filter_append]
      rw [if_neg hne]
      congr 1
      have hstep : sumOfAmounts (fun x => decide (x.category = t.category)) (E ++ [t]) =
          JSNum.add (sumOfAmounts (fun x => decide (x.category = t.category)) E) t.amount := by
        unfold sumOfAmounts
        rw [sumFrom_append]
        simp [sumFrom]
      rw [hstep]
      by_cases hE : List.filter (fun x => decide (x.category = t.category)) E = []
      · rw [if_pos hE]
        have h0 : sumOfAmounts (fun x => decide (x.category = t.category)) E = JSNum.fin 0 :=
          sumFrom_of_filter_nil _ E _ hE
        rw [h0]
        rfl
      · rw [if_neg hE]
        have hnn : (sumOfAmounts (fun x => decide (x.category = t.category)) E).NonNeg :=
          sumFrom_nonNeg _ E _ (Or.inr ⟨0, le_rfl, rfl⟩) hposE
        rw [jsOrZero_of_nonNeg hnn]
    · rw [if_neg hc, ih']
      have hf : List.filter (fun x => decide (x.category = c)) (E ++ [t]) =
          List.filter (fun x => decide (x.category = c)) E := by
        simp [List.filter_append, hc]
      have hs : sumOfAmounts (fun x => decide (x.category = c)) (E ++ [t]) =
          sumOfAmounts (fun x => decide (x.category = c)) E := by
        unfold sumOfAmounts
        rw [sumFrom_append]
        simp [sumFrom, hc]
      rw [hf, hs]

/-! ## C8: expense by category -/

/-- C8: for every ledger whose amounts are greater than 0 and every category `c`:
`c` is a key of `expenseByCategory` exactly when some record with type expense has
category `c`, and then its value is the sum of the amounts of exactly the expense
records with category `c` (added in ledger order); in the two-add scenario the
mapping is `{Food: 150}`. -/
theorem expenseByCategory_spec (L : List Transaction)
    (hpos : ∀ t ∈ L, JSNum.lt (JSNum.fin 0) t.amount = true) (c : Category) :
    (c ∈ JSObject.keys (expenseByCategory L) ↔
      ∃ t ∈ L, t.type = .expense ∧ t.category = c) ∧
    ((∃ t ∈ L, t.type = .expense ∧ t.category = c) →
      JSObject.get (expenseByCategory L) c =
        some (sumOfAmounts (fun t => decide (t.type = .expense ∧ t.category = c)) L)) ∧
    ((¬ ∃ t ∈ L, t.type = .expense ∧ t.category = c) →
      JSObject.get (expenseByCategory L) c = none) ∧
    expenseByCategory (run scenario) = [(Category.Food, JSNum.fin 150)] := by
  have hget := expense_loop_get (L.filter (fun t => decide (t.type = .expense)))
    (fun t ht => hpos t (List.mem_filter.1 ht).1) c
  have hff : List.filter (fun t => decide (t.category = c))
      (L.filter (fun t => decide (t.type = .expense))) =
      L.filter (fun t => decide (t.type = .expense ∧ t.category = c)) := by
    rw [List.filter_filter]
    congr 1
    funext t
    simp [and_comm]
  have hsum : sumOfAmounts (fun t => decide (t.category = c))
      (L.filter (fun t => decide (t.type = .expense))) =
      sumOfAmounts (fun t => decide (t.type = .expense ∧ t.category = c)) L := by
    unfold sumOfAmounts
    rw [sumFrom_filter]
    congr 1
    funext t
    simp
  have hex : (L.filter (fun t => decide (t.type = .expense ∧ t.category = c)) = []) ↔
      ¬ ∃ t ∈ L, t.type = .expense ∧ t.category = c := by
    rw [List.filter_eq_nil_iff]
    simp
  rw [hff, hsum] at hget
  refine ⟨?_, ?_, ?_, by decide!⟩
  · rw [JSObject.mem_keys_iff]
    unfold expenseByCategory
    rw [hget]
    by_cases h : ∃ t ∈ L, t.type = .expense ∧ t.category = c
    · simp [mt hex.1 (not_not.2 h), h]
    · simp [hex.2 h, h]
  · intro h
    unfold expenseByCategory
    rw [hget, if_neg (mt hex.1 (not_not.2 h))]
  · intro h
    unfold expenseByCategory
    rw [hget, if_pos (hex.2 h)]

/-- C8 at a concrete input: a paycheck, rent and three food bills of 0.1, 0.2 and
0.3 (as binary64 values), whose sum in ledger order is 0.6000000000000001. -/
theorem expenseByCategory_spec_witness :
    JSObject.get (expenseByCategory
        [⟨"2024-01-01", .income, .Salary, "Paycheck", .fin 5000, 1⟩,
         ⟨"2024-01-02", .expense, .Food, "Tea", toNumber "0.1", 2⟩,
         ⟨"2024-01-03", .expense, .Bills, "Rent", .fin 900, 3⟩,
         ⟨"2024-01-04", .expense, .Food, "Milk", toNumber "0.2", 4⟩,
         ⟨"2024-01-05", .expense, .Food, "Bread", toNumber "0.3", 5⟩]) Category.Food =
      some (JSNum.fin (1351079888211149 / 2251799813685248)) ∧
    JSObject.get (expenseByCategory
        [⟨"2024-01-01", .income, .Salary, "Paycheck", .fin 5000, 1⟩,
         ⟨"2024-01-02", .expense, .Food, "Tea", toNumber "0.1", 2⟩,
         ⟨"2024-01-03", .expense, .Bills, "Rent", .fin 900, 3⟩,
         ⟨"2024-01-04", .expense, .Food, "Milk", toNumber "0.2", 4⟩,
         ⟨"2024-01-05", .expense, .Food, "Bread", toNumber "0.3", 5⟩]) Category.Salary = none := by
  have h := expenseByCategory_spec
    [⟨"2024-01-01", .income, .Salary, "Paycheck", .fin 5000, 1⟩,
     ⟨"2024-01-02", .expense, .Food, "Tea", toNumber "0.1", 2⟩,
     ⟨"2024-01-03", .expense, .Bills, "Rent", .fin 900, 3⟩,
     ⟨"2024-01-04", .expense, .Food, "Milk", toNumber "0.2", 4⟩,
     ⟨"2024-01-05", .expense, .Food, "Bread", toNumber "0.3", 5⟩] (by decide!)
  refine ⟨?_, (h Category.Salary).2.2.1 (by decide!)⟩
  rw [(h Category.Food).2.1 (by decide!)]
  decide!

/-! ## Round trip of strings through QuoteJSONString -/

theorem hexValue4_control : ∀ n : Fin 32,
    hexValue4 '0' '0' (hexDigitChar (n.val / 16)) (hexDigitChar (n.val % 16)) = some n.val := by
  decide

theorem codeUnitChar_toNat (c : Char) (h : c.toNat < 32) : codeUnitChar c.toNat = c := by
  unfold codeUnitChar
  rw [if_neg (by omega)]
  exact Char.ofNat_toNat c

theorem readStringBody_escape (e ch : Char) (tail : List Char) (he : e ≠ 'u')
    (hs : simpleEscape e = some ch) :
    readStringBody ('\\' :: e :: tail) = (readStringBody tail).map (fun s => ch :: s) := by
  rw [readStringBody.eq_def]
  simp [he, hs]

theorem readStringBody_unicode (h1 h2 h3 h4 : Char) (n : Nat) (tail : List Char)
    (hx : hexValue4 h1 h2 h3 h4 = some n) :
    readStringBody ('\\' :: 'u' :: h1 :: h2 :: h3 :: h4 :: tail) =
      (readStringBody tail).map (fun s => codeUnitChar n :: s) := by
  rw [readStringBody.eq_def]
  simp [hx]

theorem readStringBody_plain (c : Char) (tail : List Char) (h1 : c ≠ '"') (h2 : c ≠ '\\')
    (h3 : ¬ c.toNat < 32) :
    readStringBody (c :: tail) = (readStringBody tail).map (fun s => c :: s) := by
  rw [readStringBody.eq_def]
  simp [h1, h2, h3]

theorem readStringBody_quote (tail : List Char) : readStringBody ('"' :: tail) = .ok [] tail := by
  rw [readStringBody.eq_def]
  simp

theorem readStringBody_quoteChar (c : Char) (tail : List Char) :
    readStringBody (quoteChar c ++ tail) = (readStringBody tail).map (fun s => c :: s) := by
  unfold quoteChar
  split_ifs with h1 h2 h3 h4 h5 h6 h7 h8
  · subst h1; exact readStringBody_escape _ _ _ (by decide) (by decide)
  · subst h2; exact readStringBody_escape _ _ _ (by decide) (by decide)
  · have hc : c = Char.ofNat 8 := by rw [← h3, Char.ofNat_toNat]
    subst hc; exact readStringBody_escape _ _ _ (by decide) (by decide)
  · have hc : c = Char.ofNat 9 := by rw [← h4, Char.ofNat_toNat]
    subst hc; exact readStringBody_escape _ _ _ (by decide) (by decide)
  · have hc : c = Char.ofNat 10 := by rw [← h5, Char.ofNat_toNat]
    subst hc; exact readStringBody_escape _ _ _ (by decide) (by decide)
  · have hc : c = Char.ofNat 12 := by rw [← h6, Char.ofNat_toNat]
    subst hc; exact readStringBody_escape _ _ _ (by decide) (by decide)
  · have hc : c = Char.ofNat 13 := by rw [← h7, Char.ofNat_toNat]
    subst hc; exact readStringBody_escape _ _ _ (by decide) (by decide)
  · have hx := hexValue4_control ⟨c.toNat, h8⟩
    simp only at hx
    have := readStringBody_unicode _ _ _ _ _ tail hx
    rw [codeUnitChar_toNat c h8] at this
    exact this
  · exact readStringBody_plain c tail h1 h2 h8

theorem readStringBody_quoteBody (s rest : List Char) :
    readStringBody (quoteBody s ++ '"' :: rest) = .ok s rest := by
  induction s with
  | nil => exact readStringBody_quote rest
  | cons c cs ih =>
    simp only [quoteBody, List.append_assoc]
    rw [readStringBody_quoteChar, ih]
    rfl

/-! ## Digits and their value -/

theorem digitChar_props : ∀ d : Fin 10,
    digitValue 10 (digitChar d.val) = some d.val ∧ isDecDigit (digitChar d.val) = true ∧
    (digitChar d.val = '0' ↔ d.val = 0) := by
  decide

theorem digitValue_digitChar {d : Nat} (h : d < 10) : digitValue 10 (digitChar d) = some d :=
  (digitChar_props ⟨d, h⟩).1

theorem isDecDigit_digitChar {d : Nat} (h : d < 10) : isDecDigit (digitChar d) = true :=
  (digitChar_props ⟨d, h⟩).2.1

theorem digitChar_eq_zero_iff {d : Nat} (h : d < 10) : digitChar d = '0' ↔ d = 0 :=
  (digitChar_props ⟨d, h⟩).2.2

theorem digitsValue_foldl (cs : List Char) (acc : Nat) :
    cs.foldl (fun acc c => acc * 10 + (digitValue 10 c).getD 0) acc =
      acc * 10 ^ cs.length + digitsValue 10 cs := by
  induction cs generalizing acc with
  | nil => simp [digitsValue]
  | cons c cs ih =>
    unfold digitsValue
    simp only [List.foldl_cons, List.length_cons]
    rw [ih, ih (0 * 10 + _)]
    ring

theorem digitsValue_nil : digitsValue 10 [] = 0 := rfl

theorem digitsValue_append (xs ys : List Char) :
    digitsValue 10 (xs ++ ys) = digitsValue 10 xs * 10 ^ ys.length + digitsValue 10 ys := by
  conv_lhs => unfold digitsValue
  rw [List.foldl_append, digitsValue_foldl]
  rfl

theorem digitsValue_cons (c : Char) (cs : List Char) :
    digitsValue 10 (c :: cs) = (digitValue 10 c).getD 0 * 10 ^ cs.length + digitsValue 10 cs := by
  have := digitsValue_append [c] cs
  simpa [digitsValue] using this

theorem digitsValue_singleton_digitChar {d : Nat} (h : d < 10) :
    digitsValue 10 [digitChar d] = d := by
  simp [digitsValue, digitValue_digitChar h]

theorem natDigits_spec (fuel : Nat) : ∀ n : Nat, n ≤ fuel →
    digitsValue 10 (natDigits fuel n) = n ∧
    (∀ c ∈ natDigits fuel n, isDecDigit c = true) ∧
    (n ≠ 0 → natDigits fuel n ≠ [] ∧ (natDigits fuel n).head? ≠ some '0') := by
  induction fuel with
  | zero =>
    intro n hn
    have : n = 0 := by omega
    subst this
    simp [natDigits, digitsValue]
  | succ fuel ih =>
    intro n hn
    by_cases h0 : n = 0
    · subst h0
      simp [natDigits, digitsValue]
    · have hdiv : n / 10 ≤ fuel := by omega
      obtain ⟨hv, hd, hh⟩ := ih (n / 10) hdiv
      have hlt : n % 10 < 10 := Nat.mod_lt _ (by decide)
      simp only [natDigits, h0, if_false]
      refine ⟨?_, ?_, ?_⟩
      · rw [digitsValue_append, hv, digitsValue_singleton_digitChar hlt]
        simp only [List.length_singleton, pow_one]
        omega
      · intro c hc
        rcases List.mem_append.1 hc with hc | hc
        · exact hd c hc
        · simp only [List.mem_singleton] at hc
          subst hc
          exact isDecDigit_digitChar hlt
      · intro _
        refine ⟨by simp, ?_⟩
        by_cases hq : n / 10 = 0
        · have hnil : natDigits fuel (n / 10) = [] := by
            rw [hq]; cases fuel <;> simp [natDigits]
          rw [hnil]
          simp only [List.nil_append, List.head?_cons, ne_eq, Option.some.injEq]
          rw [digitChar_eq_zero_iff hlt]
          omega
        · obtain ⟨hne, hhead⟩ := hh hq
          rw [List.head?_append_of_ne_nil _ hne]
          exact hhead

theorem natDigits_zero (fuel : Nat) : natDigits fuel 0 = [] := by
  cases fuel <;> simp [natDigits]

/-- The digits of `r / den`: when the expansion ends within the fuel, the digits
`fd` satisfy `value fd * den = r * 10 ^ length fd`. -/
theorem fractionDigits_spec (den : Nat) (hden : 0 < den) (fuel : Nat) :
    ∀ (j r : Nat), j ≤ fuel → r < den → den ∣ r * 10 ^ j →
    digitsValue 10 (fractionDigits fuel r den) * den =
      r * 10 ^ (fractionDigits fuel r den).length ∧
    (∀ c ∈ fractionDigits fuel r den, isDecDigit c = true) ∧
    (fractionDigits fuel r den = [] ↔ r = 0) ∧
    (fractionDigits fuel r den).getLast? ≠ some '0' := by
  induction fuel with
  | zero =>
    intro j r hj hr hdvd
    have hj0 : j = 0 := by omega
    subst hj0
    have hr0 : r = 0 := by
      simp only [pow_zero, mul_one] at hdvd
      exact Nat.eq_zero_of_dvd_of_lt hdvd hr
    subst hr0
    simp [fractionDigits, digitsValue]
  | succ fuel ih =>
    intro j r hj hr hdvd
    by_cases hr0 : r = 0
    · subst hr0
      simp [fractionDigits, digitsValue]
    · have hjpos : 0 < j := by
        rcases Nat.eq_zero_or_pos j with h | h
        · subst h
          simp only [pow_zero, mul_one] at hdvd
          exact absurd (Nat.eq_zero_of_dvd_of_lt hdvd hr) hr0
        · exact h
      have hdlt : r * 10 / den < 10 := by
        rw [Nat.div_lt_iff_lt_mul hden]
        nlinarith
      have hr' : r * 10 % den < den := Nat.mod_lt _ hden
      have hdvd' : den ∣ (r * 10 % den) * 10 ^ (j - 1) := by
        have h1 : r * 10 ^ j = (r * 10) * 10 ^ (j - 1) := by
          rw [mul_assoc, ← pow_succ']
          congr 2
          omega
        rw [h1] at hdvd
        have h2 : r * 10 = den * (r * 10 / den) + r * 10 % den := (Nat.div_add_mod _ _).symm
        have h3 : (r * 10) * 10 ^ (j - 1) =
            den * ((r * 10 / den) * 10 ^ (j - 1)) + (r * 10 % den) * 10 ^ (j - 1) := by
          conv_lhs => rw [h2]
          ring
        rw [h3] at hdvd
        exact (Nat.dvd_add_right (Dvd.intro _ rfl)).1 hdvd
      obtain ⟨hv, hd, hnil, hlast⟩ := ih (j - 1) (r * 10 % den) (by omega) hr' hdvd'
      simp only [fractionDigits, hr0, if_false]
      refine ⟨?_, ?_, by simp, ?_⟩
      · rw [digitsValue_cons, digitValue_digitChar hdlt]
        simp only [Option.getD_some, List.length_cons]
        have h2 : r * 10 = den * (r * 10 / den) + r * 10 % den := (Nat.div_add_mod _ _).symm
        calc (r * 10 / den * 10 ^ (fractionDigits fuel (r * 10 % den) den).length +
              digitsValue 10 (fractionDigits fuel (r * 10 % den) den)) * den
            = (den * (r * 10 / den)) * 10 ^ (fractionDigits fuel (r * 10 % den) den).length +
              digitsValue 10 (fractionDigits fuel (r * 10 % den) den) * den := by ring
          _ = (den * (r * 10 / den)) * 10 ^ (fractionDigits fuel (r * 10 % den) den).length +
              (r * 10 % den) * 10 ^ (fractionDigits fuel (r * 10 % den) den).length := by rw [hv]
          _ = (den * (r * 10 / den) + r * 10 % den) *
                10 ^ (fractionDigits fuel (r * 10 % den) den).length := by ring
          _ = r * 10 ^ ((fractionDigits fuel (r * 10 % den) den).length + 1) := by
              rw [← h2]; ring
      · intro c hc
        rcases List.mem_cons.1 hc with hc | hc
        · subst hc; exact isDecDigit_digitChar hdlt
        · exact hd c hc
      · by_cases hn : fractionDigits fuel (r * 10 % den) den = []
        · rw [hn]
          simp only [List.getLast?_singleton, ne_eq, Option.some.injEq]
          rw [digitChar_eq_zero_iff hdlt]
          have hrem : r * 10 % den = 0 := hnil.1 hn
          intro hq
          have h2 : r * 10 = den * (r * 10 / den) + r * 10 % den := (Nat.div_add_mod _ _).symm
          rw [hq, hrem] at h2
          omega
        · obtain ⟨a, as, hfd⟩ := List.exists_cons_of_ne_nil hn
          rw [hfd] at hlast ⊢
          rw [List.getLast?_cons_cons]
          exact hlast

/-! ## Reading a number back -/

theorem takeWhile_digits_append (ds tail : List Char) (hd : ∀ c ∈ ds, isDecDigit c = true)
    (ht : ∀ c, tail.head? = some c → isDecDigit c = false) :
    (ds ++ tail).takeWhile isDecDigit = ds ∧ (ds ++ tail).dropWhile isDecDigit = tail := by
  induction ds with
  | nil =>
    cases tail with
    | nil => simp
    | cons c cs => simp [List.takeWhile, List.dropWhile, ht c rfl]
  | cons d ds ih =>
    have hdd := hd d (by simp)
    have ih' := ih (fun c hc => hd c (List.mem_cons_of_mem _ hc))
    simp [List.takeWhile, List.dropWhile, hdd, ih'.1, ih'.2]

theorem readExponent_spec (ex : Option (Bool × List Char)) (rest : List Char)
    (hex : ∀ p, ex = some p → p.2 ≠ [] ∧ ∀ c ∈ p.2, isDecDigit c = true)
    (hrest : NumberEnd rest) :
    readExponent (exponentText ex ++ rest) = some (exponentValue ex, rest) := by
  cases ex with
  | none =>
    cases rest with
    | nil => rfl
    | cons c cs =>
      obtain ⟨_, _, h3, h4⟩ := hrest c rfl
      simp [exponentText, exponentValue, readExponent, h3, h4]
  | some p =>
    obtain ⟨negative, ep⟩ := p
    obtain ⟨hne, hd⟩ := hex _ rfl
    have htw := takeWhile_digits_append ep rest hd (fun c hc => (hrest c hc).1)
    obtain ⟨e0, es, hep⟩ := List.exists_cons_of_ne_nil hne
    cases negative with
    | true =>
      simp only [exponentText, exponentValue, if_true, List.cons_append, readExponent]
      simp [htw.1, htw.2, hne]
    | false =>
      simp only [exponentText, exponentValue, List.cons_append, readExponent]
      simp [htw.1, htw.2, hne]

theorem readFraction_spec (fp tail : List Char) (hd : ∀ c ∈ fp, isDecDigit c = true)
    (ht : ∀ c, tail.head? = some c → isDecDigit c = false ∧ c ≠ '.') :
    readFraction (fractionText fp ++ tail) = some (fp, tail) := by
  cases fp with
  | nil =>
    cases tail with
    | nil => rfl
    | cons c cs => simp [fractionText, readFraction, (ht c rfl).2]
  | cons f fs =>
    have htw := takeWhile_digits_append (f :: fs) tail hd (fun c hc => (ht c hc).1)
    show readFraction ('.' :: ((f :: fs) ++ tail)) = _
    simp only [readFraction, if_true]
    rw [htw.1, htw.2]
    simp

theorem exponentText_head (ex : Option (Bool × List Char)) (rest : List Char)
    (hrest : NumberEnd rest) :
    ∀ c, (exponentText ex ++ rest).head? = some c → isDecDigit c = false ∧ c ≠ '.' := by
  intro c hc
  cases ex with
  | none => exact ⟨(hrest c hc).1, (hrest c hc).2.1⟩
  | some p =>
    obtain ⟨negative, ep⟩ := p
    simp only [exponentText, List.cons_append, List.head?_cons, Option.some.injEq] at hc
    subst hc
    decide

theorem fractionText_head (fp tail : List Char)
    (ht : ∀ c, tail.head? = some c → isDecDigit c = false) :
    ∀ c, (fractionText fp ++ tail).head? = some c → isDecDigit c = false := by
  intro c hc
  cases fp with
  | nil => exact ht c hc
  | cons f fs =>
    simp only [fractionText, List.isEmpty_cons, Bool.false_eq_true, if_false,
      List.cons_append, List.head?_cons, Option.some.injEq] at hc
    subst hc
    decide

/-- Reading back a number text made of integer digits, an optional fraction and
an optional exponent. -/
theorem readUnsignedNumber_spec (ip fp : List Char) (ex : Option (Bool × List Char))
    (rest : List Char)
    (hip : ∀ c ∈ ip, isDecDigit c = true) (hne : ip ≠ [])
    (hlead : ip.head? ≠ some '0' ∨ ip.length = 1)
    (hfp : ∀ c ∈ fp, isDecDigit c = true)
    (hex : ∀ p, ex = some p → p.2 ≠ [] ∧ ∀ c ∈ p.2, isDecDigit c = true)
    (hrest : NumberEnd rest) :
    readUnsignedNumber (ip ++ (fractionText fp ++ (exponentText ex ++ rest))) =
      .ok (scale10 (digitsValue 10 (ip ++ fp)) (exponentValue ex - fp.length)) rest := by
  have hhead := exponentText_head ex rest hrest
  have htw := takeWhile_digits_append ip (fractionText fp ++ (exponentText ex ++ rest)) hip
    (fractionText_head fp _ (fun c hc => (hhead c hc).1))
  unfold readUnsignedNumber
  simp only [htw.1, htw.2]
  have hguard : (ip.isEmpty || (ip.head? == some '0' && decide (1 < ip.length))) = false := by
    rcases hlead with h | h
    · cases ip with
      | nil => exact absurd rfl hne
      | cons a as =>
        simp only [List.head?_cons, ne_eq, Option.some.injEq] at h
        simp [h]
    · cases ip with
      | nil => exact absurd rfl hne
      | cons a as => simp [h]
  rw [hguard]
  simp only [Bool.false_eq_true, if_false]
  rw [readFraction_spec fp _ hfp hhead]
  simp only
  rw [readExponent_spec ex rest hex hrest]

/-! ## The digits Number::toString writes -/

theorem scale10_eq (m : ℚ) (e : Int) : scale10 m e = m * (10 : ℚ) ^ e := by
  unfold scale10
  split_ifs with h
  · congr 1
    rw [← zpow_natCast, Int.toNat_of_nonneg h]
  · have hneg : 0 ≤ -e := by omega
    rw [div_eq_mul_inv, ← zpow_natCast, Int.toNat_of_nonneg hneg, zpow_neg, inv_inv]

/-- A denominator that divides a power of ten divides `10 ^ den`. -/
theorem decimal_dvd (d : Nat) (h : ∃ j : Nat, d ∣ 10 ^ j) : d ∣ 10 ^ d := by
  obtain ⟨j, hj⟩ := h
  have hd0 : d ≠ 0 := by
    rintro rfl
    have := Nat.eq_zero_of_zero_dvd hj
    exact absurd this (by positivity)
  rw [← Nat.factorization_le_iff_dvd hd0 (by positivity)]
  have hle := (Nat.factorization_le_iff_dvd hd0 (by positivity)).2 hj
  intro p
  have hp := hle p
  simp only [Nat.factorization_pow, Finsupp.smul_apply, smul_eq_mul] at hp ⊢
  rcases Nat.eq_zero_or_pos ((10 : Nat).factorization p) with h0 | h0
  · rw [h0] at hp ⊢
    omega
  · have hlt : d.factorization p < d := Nat.factorization_lt p hd0
    nlinarith

theorem digitsValue_replicate_zero (t : Nat) : digitsValue 10 (List.replicate t '0') = 0 := by
  induction t with
  | zero => rfl
  | succ t ih =>
    have h0 : (digitValue 10 '0').getD 0 = 0 := by decide
    rw [List.replicate_succ, digitsValue_cons, ih, h0]
    simp

theorem stripTrailingZeros_spec (ds : List Char) :
    ∃ t : Nat, ds = stripTrailingZeros ds ++ List.replicate t '0' := by
  refine ⟨(ds.reverse.takeWhile (fun c => c == '0')).length, ?_⟩
  have h := List.takeWhile_append_dropWhile (fun c => c == '0') ds.reverse
  have hrep : ds.reverse.takeWhile (fun c => c == '0') =
      List.replicate (ds.reverse.takeWhile (fun c => c == '0')).length '0' := by
    rw [List.eq_replicate_iff]
    refine ⟨rfl, ?_⟩
    intro c hc
    simpa using List.mem_takeWhile_imp hc
  have h2 : ds = (ds.reverse.dropWhile (fun c => c == '0')).reverse ++
      (ds.reverse.takeWhile (fun c => c == '0')).reverse := by
    rw [← List.reverse_append, h, List.reverse_reverse]
  rw [hrep, List.reverse_replicate] at h2
  exact h2

theorem leadingZeros_spec (ds : List Char) :
    ds = List.replicate (leadingZeros ds) '0' ++ ds.drop (leadingZeros ds) ∧
    (ds.drop (leadingZeros ds)).head? ≠ some '0' := by
  have h := List.takeWhile_append_dropWhile (fun c => c == '0') ds
  have hrep : ds.takeWhile (fun c => c == '0') = List.replicate (leadingZeros ds) '0' := by
    rw [List.eq_replicate_iff]
    refine ⟨rfl, ?_⟩
    intro c hc
    simpa using List.mem_takeWhile_imp hc
  have hdrop : ds.drop (leadingZeros ds) = ds.dropWhile (fun c => c == '0') := by
    have hd := List.drop_left (ds.takeWhile (fun c => c == '0'))
      (ds.dropWhile (fun c => c == '0'))
    rw [h] at hd
    exact hd
  refine ⟨?_, ?_⟩
  · rw [hdrop, ← hrep, h]
  · rw [hdrop]
    intro hh
    have := List.head?_dropWhile_not (fun c => c == '0') ds
    rw [hh] at this
    simp at this

/-- The integer digits and the fraction digits of a positive decimal number. -/
theorem positive_digits (q : ℚ) (hq : 0 < q) (hdec : ∃ j : Nat, q.den ∣ 10 ^ j) :
    (∀ c ∈ natDigits (q.num.toNat / q.den) (q.num.toNat / q.den), isDecDigit c = true) ∧
    (∀ c ∈ fractionDigits q.den (q.num.toNat % q.den) q.den, isDecDigit c = true) ∧
    (q.num.toNat / q.den ≠ 0 →
      natDigits (q.num.toNat / q.den) (q.num.toNat / q.den) ≠ [] ∧
      (natDigits (q.num.toNat / q.den) (q.num.toNat / q.den)).head? ≠ some '0') ∧
    (q.num.toNat / q.den = 0 →
      natDigits (q.num.toNat / q.den) (q.num.toNat / q.den) = [] ∧
      fractionDigits q.den (q.num.toNat % q.den) q.den ≠ []) ∧
    (fractionDigits q.den (q.num.toNat % q.den) q.den).getLast? ≠ some '0' ∧
    (fractionDigits q.den (q.num.toNat % q.den) q.den = [] ↔ q.num.toNat % q.den = 0) ∧
    ((digitsValue 10 (natDigits (q.num.toNat / q.den) (q.num.toNat / q.den) ++
        fractionDigits q.den (q.num.toNat % q.den) q.den) : ℕ) : ℚ) =
      q * (10 : ℚ) ^ (fractionDigits q.den (q.num.toNat % q.den) q.den).length := by
  have hden : 0 < q.den := q.den_pos
  have hnum : 0 < q.num := Rat.num_pos.2 hq
  obtain ⟨hiv, hid, hih⟩ := natDigits_spec (q.num.toNat / q.den) (q.num.toNat / q.den) le_rfl
  have hr : q.num.toNat % q.den < q.den := Nat.mod_lt _ hden
  obtain ⟨hfv, hfd, hfnil, hflast⟩ := fractionDigits_spec q.den hden q.den q.den
    (q.num.toNat % q.den) le_rfl hr (Dvd.dvd.mul_left (decimal_dvd q.den hdec) _)
  refine ⟨hid, hfd, hih, ?_, hflast, hfnil, ?_⟩
  · intro h0
    refine ⟨by rw [h0]; exact natDigits_zero 0, ?_⟩
    intro hnil
    have hr0 := hfnil.1 hnil
    have h2 : q.num.toNat = q.den * (q.num.toNat / q.den) + q.num.toNat % q.den :=
      (Nat.div_add_mod _ _).symm
    rw [h0, hr0] at h2
    omega
  · have hnat : digitsValue 10 (natDigits (q.num.toNat / q.den) (q.num.toNat / q.den) ++
        fractionDigits q.den (q.num.toNat % q.den) q.den) * q.den =
        q.num.toNat * 10 ^ (fractionDigits q.den (q.num.toNat % q.den) q.den).length := by
      rw [digitsValue_append, hiv, add_mul, hfv]
      have h2 : q.num.toNat = q.den * (q.num.toNat / q.den) + q.num.toNat % q.den :=
        (Nat.div_add_mod _ _).symm
      generalize (fractionDigits q.den (q.num.toNat % q.den) q.den).length = f
      calc q.num.toNat / q.den * 10 ^ f * q.den + q.num.toNat % q.den * 10 ^ f
          = (q.den * (q.num.toNat / q.den) + q.num.toNat % q.den) * 10 ^ f := by ring
        _ = q.num.toNat * 10 ^ f := by rw [← h2]
    have hcast := congrArg (fun n : ℕ => (n : ℚ)) hnat
    simp only [Nat.cast_mul, Nat.cast_pow, Nat.cast_ofNat] at hcast
    have hnumq : ((q.num.toNat : ℕ) : ℚ) = (q.num : ℚ) := by
      have : ((q.num.toNat : ℕ) : ℤ) = q.num := Int.toNat_of_nonneg (le_of_lt hnum)
      exact_mod_cast this
    have hdq : (q.den : ℚ) ≠ 0 := by exact_mod_cast (ne_of_gt hden)
    have hqdef : q = (q.num : ℚ) / (q.den : ℚ) := (Rat.num_div_den q).symm
    rw [hnumq] at hcast
    rw [eq_div_iff hdq] at hqdef
    rw [← hqdef] at hcast
    have : ((digitsValue 10 (natDigits (q.num.toNat / q.den) (q.num.toNat / q.den) ++
        fractionDigits q.den (q.num.toNat % q.den) q.den) : ℕ) : ℚ) * (q.den : ℚ) =
        (q * (10 : ℚ) ^ (fractionDigits q.den (q.num.toNat % q.den) q.den).length) *
          (q.den : ℚ) := by
      rw [hcast]; ring
    exact mul_right_cancel₀ hdq this

theorem readUnsignedNumber_of_value (ip fp : List Char) (ex : Option (Bool × List Char))
    (rest : List Char) (q : ℚ)
    (hip : ∀ c ∈ ip, isDecDigit c = true) (hne : ip ≠ [])
    (hlead : ip.head? ≠ some '0' ∨ ip.length = 1)
    (hfp : ∀ c ∈ fp, isDecDigit c = true)
    (hex : ∀ p, ex = some p → p.2 ≠ [] ∧ ∀ c ∈ p.2, isDecDigit c = true)
    (hrest : NumberEnd rest)
    (hval : ((digitsValue 10 (ip ++ fp) : ℕ) : ℚ) * (10 : ℚ) ^ (exponentValue ex - fp.length) = q) :
    readUnsignedNumber (ip ++ (fractionText fp ++ (exponentText ex ++ rest))) = .ok q rest := by
  rw [readUnsignedNumber_spec ip fp ex rest hip hne hlead hfp hex hrest, scale10_eq, hval]

theorem exponentForm_append (d : Char) (ds : List Char) (e : Int) (rest : List Char) :
    exponentForm (d :: ds) e ++ rest =
      [d] ++ (fractionText ds ++
        (exponentText (some (decide (e < 0), natDigits e.natAbs e.natAbs)) ++ rest)) := by
  by_cases he : 0 ≤ e
  · have hn : ¬ e < 0 := by omega
    simp [exponentForm, fractionText, exponentText, he, hn]
  · have hn : e < 0 := by omega
    simp [exponentForm, fractionText, exponentText, he, hn]

theorem exponent_digits (e : Int) (he : e ≠ 0) :
    ∀ p, some (decide (e < 0), natDigits e.natAbs e.natAbs) = some p →
      p.2 ≠ [] ∧ ∀ c ∈ p.2, isDecDigit c = true := by
  intro p hp
  simp only [Option.some.injEq] at hp
  subst hp
  obtain ⟨_, hd, hh⟩ := natDigits_spec e.natAbs e.natAbs le_rfl
  exact ⟨(hh (by omega)).1, hd⟩

theorem exponent_value (e : Int) :
    exponentValue (some (decide (e < 0), natDigits e.natAbs e.natAbs)) = e := by
  obtain ⟨hv, _, _⟩ := natDigits_spec e.natAbs e.natAbs le_rfl
  by_cases he : e < 0
  · simp only [exponentValue, he, decide_True, if_true, hv]
    omega
  · simp only [exponentValue, he, decide_False, Bool.false_eq_true, if_false, hv]
    omega

/-- Reading back what Number::toString writes for a positive decimal number. -/
theorem readUnsignedNumber_positiveToString (q : ℚ) (hq : 0 < q)
    (hdec : ∃ j : Nat, q.den ∣ 10 ^ j) (rest : List Char) (hrest : NumberEnd rest) :
    readUnsignedNumber (positiveToString q ++ rest) = .ok q rest := by
  obtain ⟨hid, hfd, hpos, hzero, hlast, hfnil, hval⟩ := positive_digits q hq hdec
  unfold positiveToString
  simp only
  generalize natDigits (q.num.toNat / q.den) (q.num.toNat / q.den) = intD at *
  generalize fractionDigits q.den (q.num.toNat % q.den) q.den = fd at *
  generalize q.num.toNat / q.den = ip at *
  have h10 : (10 : ℚ) ≠ 0 := by norm_num
  by_cases h0 : ip = 0
  · obtain ⟨hI, hF⟩ := hzero h0
    subst hI
    simp only [List.nil_append] at hval
    rw [if_neg (not_not.2 h0)]
    by_cases hz : leadingZeros fd < 6
    · rw [if_pos hz]
      have htext : '0' :: '.' :: fd ++ rest =
          ['0'] ++ (fractionText fd ++ (exponentText none ++ rest)) := by
        obtain ⟨a, as, rfl⟩ := List.exists_cons_of_ne_nil hF
        simp [fractionText, exponentText]
      rw [htext]
      apply readUnsignedNumber_of_value ['0'] fd none rest q (by decide) (by simp)
        (Or.inr rfl) hfd (by intro p hp; cases hp) hrest
      have hv0 : digitsValue 10 (['0'] ++ fd) = digitsValue 10 fd := by
        have h00 : digitsValue 10 ['0'] = 0 := by decide
        rw [digitsValue_append, h00]
        simp
      rw [hv0, hval]
      simp only [exponentValue, zero_sub, zpow_neg, zpow_natCast]
      field_simp
    · rw [if_neg hz]
      obtain ⟨hsplit, hhead⟩ := leadingZeros_spec fd
      generalize leadingZeros fd = z at *
      cases hS : fd.drop z with
      | nil =>
        rw [hS, List.append_nil] at hsplit
        rw [hsplit] at hlast hF
        cases z with
        | zero => exact absurd rfl hF
        | succ z =>
          rw [List.replicate_succ', List.getLast?_concat] at hlast
          exact absurd rfl hlast
      | cons d ds =>
        rw [exponentForm_append]
        rw [hS] at hsplit
        have hdig : ∀ c ∈ d :: ds, isDecDigit c = true := by
          intro c hc
          apply hfd c
          rw [hsplit]
          exact List.mem_append_right _ hc
        apply readUnsignedNumber_of_value [d] ds _ rest q
          (by intro c hc; exact hdig c (by simp at hc; simp [hc])) (by simp) (Or.inr rfl)
          (fun c hc => hdig c (List.mem_cons_of_mem _ hc))
          (exponent_digits _ (by omega)) hrest
        rw [exponent_value]
        have hv0 : digitsValue 10 ([d] ++ ds) = digitsValue 10 fd := by
          conv_rhs => rw [hsplit, digitsValue_append, digitsValue_replicate_zero]
          simp
        have hlen : fd.length = z + (ds.length + 1) := by
          conv_lhs => rw [hsplit]
          simp
        rw [hv0, hval, hlen]
        have hexp : (-((z : ℤ) + 1) - (ds.length : ℤ)) = -((z + (ds.length + 1) : ℕ) : ℤ) := by
          push_cast; ring
        rw [hexp, zpow_neg, zpow_natCast]
        field_simp
  · obtain ⟨hI, hH⟩ := hpos h0
    rw [if_pos h0]
    by_cases hlen : intD.length ≤ 21
    · rw [if_pos hlen]
      have htext : intD ++ (if fd.isEmpty = true then [] else '.' :: fd) ++ rest =
          intD ++ (fractionText fd ++ (exponentText none ++ rest)) := by
        simp [fractionText, exponentText]
      rw [htext]
      apply readUnsignedNumber_of_value intD fd none rest q hid hI (Or.inl hH) hfd
        (by intro p hp; cases hp) hrest
      rw [hval]
      simp only [exponentValue, zero_sub, zpow_neg, zpow_natCast]
      field_simp
    · rw [if_neg hlen]
      obtain ⟨t, ht⟩ := stripTrailingZeros_spec (intD ++ fd)
      cases hS : stripTrailingZeros (intD ++ fd) with
      | nil =>
        rw [hS, List.nil_append] at ht
        obtain ⟨a, as, rfl⟩ := List.exists_cons_of_ne_nil hI
        cases t with
        | zero => simp at ht
        | succ t =>
          rw [List.replicate_succ, List.cons_append, List.cons.injEq] at ht
          rw [ht.1] at hH
          exact absurd rfl hH
      | cons d ds =>
        rw [exponentForm_append]
        rw [hS] at ht
        have hdig : ∀ c ∈ d :: ds, isDecDigit c = true := by
          intro c hc
          have hmem : c ∈ intD ++ fd := by
            rw [ht]; exact List.mem_append_left _ hc
          rcases List.mem_append.1 hmem with h | h
          · exact hid c h
          · exact hfd c h
        apply readUnsignedNumber_of_value [d] ds _ rest q
          (by intro c hc; exact hdig c (by simp at hc; simp [hc])) (by simp) (Or.inr rfl)
          (fun c hc => hdig c (List.mem_cons_of_mem _ hc))
          (exponent_digits _ (by omega)) hrest
        rw [exponent_value]
        have hv0 : digitsValue 10 (intD ++ fd) = digitsValue 10 ([d] ++ ds) * 10 ^ t := by
          conv_lhs => rw [ht, digitsValue_append, digitsValue_replicate_zero]
          simp
        have hlen2 : intD.length + fd.length = ds.length + 1 + t := by
          have := congrArg List.length ht
          simp at this
          omega
        rw [hv0] at hval
        push_cast at hval
        have hexp : ((intD.length : ℤ) - 1 - (ds.length : ℤ)) = (t : ℤ) - (fd.length : ℤ) := by
          omega
        rw [hexp, zpow_sub₀ h10, zpow_natCast, zpow_natCast]
        rw [mul_div_assoc', hval]
        field_simp

theorem readUnsignedNumber_nondigit (c : Char) (r : List Char) (h : isDecDigit c = false) :
    readUnsignedNumber (c :: r) = (.syntaxError : Parsed ℚ) := by
  unfold readUnsignedNumber
  simp [List.takeWhile, h]

theorem readUnsignedNumber_nil : readUnsignedNumber [] = (.syntaxError : Parsed ℚ) := by
  unfold readUnsignedNumber
  simp

/-! ## Rounding and the shortest decimal -/

theorem nat_div_pow_den (m b j : Nat) : ((m : ℚ) / (b : ℚ) ^ j).den ∣ b ^ j := by
  have h1 : (b : ℚ) ^ j = ((b ^ j : ℕ) : ℚ) := by push_cast; rfl
  rw [h1, Rat.natCast_div_eq_divInt]
  have h2 := Rat.den_dvd (m : ℤ) ((b ^ j : ℕ) : ℤ)
  exact Int.natCast_dvd_natCast.1 h2

theorem nat_mul_pow_den (m b j : Nat) : ((m : ℚ) * (b : ℚ) ^ j).den = 1 := by
  have h1 : (m : ℚ) * (b : ℚ) ^ j = ((m * b ^ j : ℕ) : ℚ) := by push_cast; rfl
  rw [h1]
  exact Rat.den_natCast _

theorem scale10_nat_decimal (m : Nat) (e : Int) : ∃ j : Nat, (scale10 (m : ℚ) e).den ∣ 10 ^ j := by
  unfold scale10
  split_ifs
  · refine ⟨0, ?_⟩
    have := nat_mul_pow_den m 10 e.toNat
    simp only [Nat.cast_ofNat] at this
    rw [this]
    simp
  · refine ⟨(-e).toNat, ?_⟩
    have := nat_div_pow_den m 10 (-e).toNat
    simpa using this

theorem roundBinary64_neg (q : ℚ) : roundBinary64 (-q) = (roundBinary64 q).neg := by
  unfold roundBinary64
  simp only [abs_neg, neg_eq_zero]
  by_cases h0 : q = 0
  · simp [h0, JSNum.neg]
  · rw [if_neg h0, if_neg h0]
    by_cases hneg : q < 0
    · have hpos : ¬ (-q < 0) := by
        intro h; linarith
      simp only [hneg, hpos, if_true, if_false]
      split_ifs <;> simp [JSNum.neg]
    · have hpos : -q < 0 := by
        have : 0 < q := lt_of_le_of_ne (not_lt.1 hneg) (Ne.symm h0)
        linarith
      simp only [hneg, hpos, if_true, if_false]
      split_ifs <;> simp [JSNum.neg]

theorem shortestCandidate_spec (q : ℚ) (k : Nat) (v : ℚ) (h : shortestCandidate q k = some v) :
    0 < v ∧ (∃ j : Nat, v.den ∣ 10 ^ j) ∧ roundBinary64 v = roundBinary64 q := by
  unfold shortestCandidate at h
  simp only at h
  split_ifs at h with h1 h2 h3 h4 h5 h6 <;>
    simp only [Option.some.injEq] at h <;> subst h <;>
    simp only [Bool.and_eq_true, decide_eq_true_eq] at * <;>
    first
    | exact ⟨h1.2.1, scale10_nat_decimal _ _, h1.2.2⟩
    | exact ⟨h1.1.1, scale10_nat_decimal _ _, h1.1.2⟩
    | exact ⟨h5.1, scale10_nat_decimal _ _, h5.2⟩
    | exact ⟨h6.1, scale10_nat_decimal _ _, h6.2⟩

theorem shortestDecimal_spec (q : ℚ) (hq : 0 < q) (hdec : ∃ j : Nat, q.den ∣ 10 ^ j)
    (fuel : Nat) : ∀ k : Nat,
    0 < shortestDecimal fuel k q ∧ (∃ j : Nat, (shortestDecimal fuel k q).den ∣ 10 ^ j) ∧
    roundBinary64 (shortestDecimal fuel k q) = roundBinary64 q := by
  induction fuel with
  | zero => intro k; exact ⟨hq, hdec, rfl⟩
  | succ fuel ih =>
    intro k
    simp only [shortestDecimal]
    cases hc : shortestCandidate q k with
    | none => exact ih (k + 1)
    | some v => exact shortestCandidate_spec q k v hc

/-- A finite binary64 value has a terminating decimal expansion. -/
theorem binary64_decimal (q : ℚ) (h : roundBinary64 q = JSNum.fin q) :
    ∃ j : Nat, q.den ∣ 10 ^ j := by
  unfold roundBinary64 at h
  simp only at h
  by_cases h0 : q = 0
  · subst h0; exact ⟨0, by simp⟩
  · rw [if_neg h0] at h
    generalize roundHalfEven (|q| / pow2 (max (floorLog2 |q|) (-1022) - 52)) = n at h
    generalize max (floorLog2 |q|) (-1022) - 52 = p at h
    have key : ∃ j : Nat, ((n : ℚ) * pow2 p).den ∣ 10 ^ j := by
      unfold pow2
      split_ifs
      · refine ⟨0, ?_⟩
        have := nat_mul_pow_den n 2 p.toNat
        simp only [Nat.cast_ofNat] at this
        rw [this]
        simp
      · refine ⟨(-p).toNat, ?_⟩
        have h2 := nat_div_pow_den n 2 (-p).toNat
        simp only [Nat.cast_ofNat] at h2
        rw [mul_one_div]
        exact h2.trans (pow_dvd_pow_of_dvd (by norm_num) _)
    obtain ⟨j, hj⟩ := key
    split_ifs at h with h1 h2 h3
    · simp only [JSNum.fin.injEq] at h
      refine ⟨j, ?_⟩
      rw [← h, Rat.neg_den]
      exact hj
    · simp only [JSNum.fin.injEq] at h
      refine ⟨j, ?_⟩
      rw [← h]
      exact hj

/-- Reading back what Number::toString writes: the number itself, for a decimal. -/
theorem readNumber_numberToString (q : ℚ) (hdec : ∃ j : Nat, q.den ∣ 10 ^ j)
    (rest : List Char) (hrest : NumberEnd rest) :
    readNumber (numberToString q ++ rest) = .ok (roundBinary64 q) rest := by
  unfold numberToString
  by_cases h0 : q = 0
  · subst h0
    rw [if_pos rfl]
    have h := readUnsignedNumber_of_value ['0'] [] none rest 0 (by decide) (by simp)
      (Or.inr rfl) (by simp) (by intro p hp; cases hp) hrest
      (by rw [show digitsValue 10 (['0'] ++ []) = 0 by decide]; simp)
    simp only [fractionText, exponentText, List.isEmpty_nil, if_true, List.nil_append] at h
    show readNumber ('0' :: rest) = _
    simp only [readNumber, show ('0' : Char) ≠ '-' by decide, if_false]
    rw [show ['0'] ++ rest = '0' :: rest from rfl] at h
    rw [h]
    rfl
  · rw [if_neg h0]
    by_cases hneg : q < 0
    · rw [if_pos hneg]
      have hdec' : ∃ j : Nat, (-q).den ∣ 10 ^ j := by
        rw [Rat.neg_den]; exact hdec
      obtain ⟨hv, hvdec, hvr⟩ := shortestDecimal_spec (-q) (by linarith) hdec' 17 1
      have h := readUnsignedNumber_positiveToString _ hv hvdec rest hrest
      show readNumber ('-' :: (positiveToString (shortestDecimal 17 1 (-q)) ++ rest)) = _
      simp only [readNumber, if_true]
      rw [h]
      simp only [Parsed.map]
      rw [roundBinary64_neg, hvr, ← roundBinary64_neg, neg_neg]
    · rw [if_neg hneg]
      have hq : 0 < q := lt_of_le_of_ne (not_lt.1 hneg) (Ne.symm h0)
      obtain ⟨hv, hvdec, hvr⟩ := shortestDecimal_spec q hq hdec 17 1
      have h := readUnsignedNumber_positiveToString _ hv hvdec rest hrest
      cases htext : positiveToString (shortestDecimal 17 1 q) ++ rest with
      | nil => rw [htext, readUnsignedNumber_nil] at h; cases h
      | cons c r =>
        rw [htext] at h
        have hc : c ≠ '-' := by
          intro hc
          subst hc
          rw [readUnsignedNumber_nondigit _ _ (by decide)] at h
          cases h
        simp only [readNumber, hc, if_false]
        rw [h]
        simp only [Parsed.map]
        rw [hvr]

theorem skipWhiteSpace_cons (c : Char) (r : List Char) (h : isJSONWhiteSpace c = false) :
    skipWhiteSpace (c :: r) = c :: r := by
  simp [skipWhiteSpace, List.dropWhile, h]

theorem quoteJSONString_append (s : String) (tail : List Char) :
    quoteJSONString s ++ tail = '"' :: (quoteBody s.toList ++ '"' :: tail) := by
  simp [quoteJSONString]

/-- Parsing back a string value. -/
theorem parseValue_string (n : Nat) (s : String) (tail : List Char) :
    parseValue (n + 1) (quoteJSONString s ++ tail) = .ok (.str s) tail := by
  rw [quoteJSONString_append]
  simp only [parseValue, if_true]
  rw [readStringBody_quoteBody]
  rfl

/-- Parsing back a finite decimal number value. -/
theorem parseValue_number (n : Nat) (q : ℚ) (hdec : ∃ j : Nat, q.den ∣ 10 ^ j)
    (tail : List Char) (htail : NumberEnd tail) :
    parseValue (n + 1) (numberToString q ++ tail) = .ok (.num (roundBinary64 q)) tail := by
  have h := readNumber_numberToString q hdec tail htail
  cases htext : numberToString q ++ tail with
  | nil => rw [htext] at h; simp [readNumber] at h
  | cons c r =>
    rw [htext] at h
    have hc : c = '-' ∨ isDecDigit c = true := by
      by_cases hm : c = '-'
      · exact Or.inl hm
      · right
        by_contra hd
        simp only [readNumber, hm, if_false] at h
        rw [readUnsignedNumber_nondigit _ _ (by simpa using hd)] at h
        cases h
    have h1 : c ≠ '"' := by
      rcases hc with hc | hc
      · subst hc; decide
      · intro h; subst h; revert hc; decide
    have h2 : c ≠ '[' := by
      rcases hc with hc | hc
      · subst hc; decide
      · intro h; subst h; revert hc; decide
    have h3 : c ≠ '{' := by
      rcases hc with hc | hc
      · subst hc; decide
      · intro h; subst h; revert hc; decide
    simp only [parseValue, h1, h2, h3, if_false, hc, if_true]
    rw [h]
    rfl

theorem numberToString_head (q : ℚ) (hdec : ∃ j : Nat, q.den ∣ 10 ^ j) (tail : List Char)
    (htail : NumberEnd tail) :
    ∃ c r, numberToString q ++ tail = c :: r ∧ isJSONWhiteSpace c = false := by
  have h := readNumber_numberToString q hdec tail htail
  cases htext : numberToString q ++ tail with
  | nil => rw [htext] at h; simp [readNumber] at h
  | cons c r =>
    rw [htext] at h
    refine ⟨c, r, rfl, ?_⟩
    by_cases hm : c = '-'
    · subst hm; decide
    · by_contra hd
      have hnd : isDecDigit c = false := by
        have hw : isJSONWhiteSpace c = true := by simpa using hd
        unfold isJSONWhiteSpace at hw
        unfold isDecDigit
        simp only [Bool.or_eq_true, beq_iff_eq] at hw
        rcases hw with ((hw | hw) | hw) | hw <;> simp [hw]
      simp only [readNumber, hm, if_false] at h
      rw [readUnsignedNumber_nondigit _ _ hnd] at h
      cases h

/-! ## Parsing back a record and a ledger -/

theorem skipWhiteSpace_quote (s : String) (tail : List Char) :
    skipWhiteSpace (quoteJSONString s ++ tail) = quoteJSONString s ++ tail := by
  rw [quoteJSONString_append]
  exact skipWhiteSpace_cons _ _ (by decide)

theorem parseMembers_step (n : Nat) (k : String) (v : JSVal) (vtext tail : List Char)
    (hv : parseValue n (vtext ++ ',' :: tail) = .ok v (',' :: tail))
    (hvws : skipWhiteSpace (vtext ++ ',' :: tail) = vtext ++ ',' :: tail)
    (htws : skipWhiteSpace tail = tail) :
    parseMembers (n + 1) (quoteJSONString k ++ ':' :: (vtext ++ ',' :: tail)) =
      (parseMembers n tail).map (fun ps => (k, v) :: ps) := by
  rw [quoteJSONString_append]
  simp only [parseMembers, if_true]
  rw [readStringBody_quoteBody]
  simp only
  rw [skipWhiteSpace_cons ':' _ (by decide)]
  simp only [if_true]
  rw [hvws, hv]
  simp only
  rw [skipWhiteSpace_cons ',' _ (by decide)]
  simp only [if_true]
  rw [htws]
  rfl

theorem parseMembers_last (n : Nat) (k : String) (v : JSVal) (vtext tail : List Char)
    (hv : parseValue n (vtext ++ '}' :: tail) = .ok v ('}' :: tail))
    (hvws : skipWhiteSpace (vtext ++ '}' :: tail) = vtext ++ '}' :: tail) :
    parseMembers (n + 1) (quoteJSONString k ++ ':' :: (vtext ++ '}' :: tail)) =
      .ok [(k, v)] tail := by
  rw [quoteJSONString_append]
  simp only [parseMembers, if_true]
  rw [readStringBody_quoteBody]
  simp only
  rw [skipWhiteSpace_cons ':' _ (by decide)]
  simp only [if_true]
  rw [hvws, hv]
  simp only
  rw [skipWhiteSpace_cons '}' _ (by decide)]
  simp only [show ('}' : Char) ≠ ',' by decide, if_false, if_true]
  rfl

theorem numberEnd_comma (tail : List Char) : NumberEnd (',' :: tail) := by
  intro c hc
  simp only [List.head?_cons, Option.some.injEq] at hc
  subst hc
  decide

theorem numberEnd_brace (tail : List Char) : NumberEnd ('}' :: tail) := by
  intro c hc
  simp only [List.head?_cons, Option.some.injEq] at hc
  subst hc
  decide

theorem skipWhiteSpace_number (q : ℚ) (hdec : ∃ j : Nat, q.den ∣ 10 ^ j) (tail : List Char)
    (htail : NumberEnd tail) :
    skipWhiteSpace (numberToString q ++ tail) = numberToString q ++ tail := by
  obtain ⟨c, r, h, hc⟩ := numberToString_head q hdec tail htail
  rw [h]
  exact skipWhiteSpace_cons c r hc


/-- The text `JSON.stringify` writes for a record whose amount is finite. -/
theorem stringifyValue_record (t : Transaction) (a : ℚ) (ha : t.amount = JSNum.fin a)
    (tail : List Char) :
    stringifyValue t.toJS ++ tail =
      '{' :: (quoteJSONString "date" ++ ':' :: (quoteJSONString t.date ++ ',' ::
        (quoteJSONString "type" ++ ':' :: (quoteJSONString t.type.toString ++ ',' ::
        (quoteJSONString "category" ++ ':' :: (quoteJSONString t.category.toString ++ ',' ::
        (quoteJSONString "description" ++ ':' :: (quoteJSONString t.description ++ ',' ::
        (quoteJSONString "amount" ++ ':' :: (numberToString a ++ ',' ::
        (quoteJSONString "id" ++ ':' :: (numberToString (t.id : ℚ) ++ '}' :: tail)))))))))))) := by
  simp [Transaction.toJS, stringifyValue, stringifyMembers, ha, List.append_assoc]

/-- Parsing back a binary64 value. -/
theorem parseValue_binary64 (n : Nat) (q : ℚ) (hq : roundBinary64 q = JSNum.fin q)
    (tail : List Char) (htail : NumberEnd tail) :
    parseValue (n + 1) (numberToString q ++ tail) = .ok (.num (.fin q)) tail := by
  rw [parseValue_number n q (binary64_decimal q hq) tail htail, hq]

/-- Parsing back the text of a record whose amount and id are binary64 values. -/
theorem parseValue_record (n : Nat) (t : Transaction) (a : ℚ) (ha : t.amount = JSNum.fin a)
    (hra : roundBinary64 a = JSNum.fin a)
    (hid : roundBinary64 (t.id : ℚ) = JSNum.fin (t.id : ℚ)) (tail : List Char) :
    parseValue (n + 8) (stringifyValue t.toJS ++ tail) = .ok t.toJS tail := by
  have hdec := binary64_decimal a hra
  have hidec := binary64_decimal (t.id : ℚ) hid
  rw [stringifyValue_record t a ha tail]
  simp only [parseValue, show ('{' : Char) ≠ '"' by decide, show ('{' : Char) ≠ '[' by decide,
    if_false, if_true]
  rw [skipWhiteSpace_quote, quoteJSONString_append "date"]
  simp only [show ('"' : Char) ≠ '}' by decide, if_false]
  rw [← quoteJSONString_append "date"]
  rw [parseMembers_step (n + 6) "date" (.str t.date) _ _ (parseValue_string _ _ _)
    (skipWhiteSpace_quote _ _) (skipWhiteSpace_quote _ _)]
  rw [parseMembers_step (n + 5) "type" (.str t.type.toString) _ _ (parseValue_string _ _ _)
    (skipWhiteSpace_quote _ _) (skipWhiteSpace_quote _ _)]
  rw [parseMembers_step (n + 4) "category" (.str t.category.toString) _ _
    (parseValue_string _ _ _) (skipWhiteSpace_quote _ _) (skipWhiteSpace_quote _ _)]
  rw [parseMembers_step (n + 3) "description" (.str t.description) _ _
    (parseValue_string _ _ _) (skipWhiteSpace_quote _ _) (skipWhiteSpace_quote _ _)]
  rw [parseMembers_step (n + 2) "amount" (.num (.fin a)) _ _
    (parseValue_binary64 _ a hra _ (numberEnd_comma _))
    (skipWhiteSpace_number a hdec _ (numberEnd_comma _)) (skipWhiteSpace_quote _ _)]
  rw [parseMembers_last (n + 1) "id" (.num (.fin (t.id : ℚ))) _ _
    (parseValue_binary64 _ _ hid _ (numberEnd_brace _))
    (skipWhiteSpace_number _ hidec _ (numberEnd_brace _))]
  simp [Parsed.map, membersToObject, JSObject.set, Transaction.toJS, ha]

theorem stringifyValue_record_head (t : Transaction) (tail : List Char) :
    ∃ r, stringifyValue t.toJS ++ tail = '{' :: r := by
  simp [Transaction.toJS, stringifyValue]

theorem stringifyElements_cons_cons (x y : JSVal) (rest : List JSVal) :
    stringifyElements (x :: y :: rest) = stringifyValue x ++ ',' :: stringifyElements (y :: rest) := by
  rw [stringifyElements]

theorem stringifyElements_singleton (x : JSVal) : stringifyElements [x] = stringifyValue x := by
  rw [stringifyElements]

theorem stringifyElements_head (t : Transaction) (ts : List Transaction) (tail : List Char) :
    ∃ r, stringifyElements ((t :: ts).map Transaction.toJS) ++ tail = '{' :: r := by
  cases ts with
  | nil =>
    simp only [List.map_cons, List.map_nil, stringifyElements_singleton]
    exact stringifyValue_record_head t tail
  | cons u us =>
    simp only [List.map_cons, stringifyElements_cons_cons, List.append_assoc]
    exact stringifyValue_record_head t _

theorem parseElements_more (n : Nat) (v : JSVal) (cs rest : List Char)
    (hv : parseValue n cs = .ok v (',' :: rest)) :
    parseElements (n + 1) cs = (parseElements n (skipWhiteSpace rest)).map (fun vs => v :: vs) := by
  rw [parseElements, hv]
  simp only
  rw [skipWhiteSpace_cons ',' _ (by decide)]
  simp only [if_true]

theorem parseElements_last (n : Nat) (v : JSVal) (cs rest : List Char)
    (hv : parseValue n cs = .ok v (']' :: rest)) :
    parseElements (n + 1) cs = .ok [v] rest := by
  rw [parseElements, hv]
  simp only
  rw [skipWhiteSpace_cons ']' _ (by decide)]
  simp only [show (']' : Char) ≠ ',' by decide, if_false, if_true]

/-- Parsing back the elements of a non-empty ledger. -/
theorem parseElements_ledger (ts : List Transaction) :
    ∀ (t : Transaction) (m : Nat) (tail : List Char),
    (∀ x ∈ t :: ts, x.amount.IsBinary64 ∧ (JSNum.fin (x.id : ℚ)).IsBinary64) →
    parseElements (ts.length + 9 + m)
        (stringifyElements ((t :: ts).map Transaction.toJS) ++ ']' :: tail) =
      .ok ((t :: ts).map Transaction.toJS) tail := by
  induction ts with
  | nil =>
    intro t m tail hdec
    obtain ⟨ht, hti⟩ := hdec t (by simp)
    cases ha : t.amount with
    | fin a =>
      rw [ha] at ht
      simp only [List.map_cons, List.map_nil, stringifyElements_singleton, List.length_nil,
        Nat.zero_add]
      rw [show 9 + m = (m + 8) + 1 by omega]
      exact parseElements_last _ _ _ _ (parseValue_record m t a ha ht hti _)
    | nan => rw [ha] at ht; exact absurd ht (by simp [JSNum.IsBinary64])
    | posInf => rw [ha] at ht; exact absurd ht (by simp [JSNum.IsBinary64])
    | negInf => rw [ha] at ht; exact absurd ht (by simp [JSNum.IsBinary64])
  | cons u us ih =>
    intro t m tail hdec
    obtain ⟨ht, hti⟩ := hdec t (by simp)
    cases ha : t.amount with
    | fin a =>
      rw [ha] at ht
      simp only [List.map_cons, stringifyElements_cons_cons, List.append_assoc,
        List.length_cons, List.cons_append]
      rw [show us.length + 1 + 9 + m = ((us.length + 1 + m) + 8) + 1 by omega]
      rw [parseElements_more _ _ _ _ (parseValue_record _ t a ha ht hti _)]
      obtain ⟨r, hr⟩ := stringifyElements_head u us (']' :: tail)
      have hws : skipWhiteSpace (stringifyElements (Transaction.toJS u ::
          List.map Transaction.toJS us) ++ ']' :: tail) =
          stringifyElements (Transaction.toJS u :: List.map Transaction.toJS us) ++
            ']' :: tail := by
        have hr' : stringifyElements (Transaction.toJS u :: List.map Transaction.toJS us) ++
            ']' :: tail = '{' :: r := hr
        rw [hr']
        exact skipWhiteSpace_cons '{' r (by decide)
      rw [hws]
      have hih := ih u m tail (fun x hx => hdec x (List.mem_cons_of_mem _ hx))
      simp only [List.map_cons] at hih
      rw [show us.length + 1 + m + 8 = us.length + 9 + m by omega, hih]
      rfl
    | nan => rw [ha] at ht; exact absurd ht (by simp [JSNum.IsBinary64])
    | posInf => rw [ha] at ht; exact absurd ht (by simp [JSNum.IsBinary64])
    | negInf => rw [ha] at ht; exact absurd ht (by simp [JSNum.IsBinary64])

theorem stringifyValue_record_length (t : Transaction) :
    4 ≤ (stringifyValue t.toJS).length := by
  unfold Transaction.toJS
  rw [stringifyValue, stringifyMembers]
  simp only [quoteJSONString, List.length_cons, List.length_append]
  omega

theorem stringifyElements_length (ts : List Transaction) (t : Transaction) :
    ts.length + 4 ≤ (stringifyElements ((t :: ts).map Transaction.toJS)).length := by
  induction ts generalizing t with
  | nil =>
    simp only [List.map_cons, List.map_nil, stringifyElements_singleton, List.length_nil]
    have := stringifyValue_record_length t
    omega
  | cons u us ih =>
    simp only [List.map_cons, stringifyElements_cons_cons, List.length_append,
      List.length_cons]
    have := ih u
    simp only [List.map_cons] at this
    omega

theorem parseValue_array (n : Nat) (r r1 rest : List Char) (vs : List JSVal)
    (hr : skipWhiteSpace r = '{' :: r1)
    (h : parseElements n ('{' :: r1) = .ok vs rest) :
    parseValue (n + 1) ('[' :: r) = .ok (.arr vs) rest := by
  simp only [parseValue, show ('[' : Char) ≠ '"' by decide, if_false, if_true]
  rw [hr]
  simp only [show ('{' : Char) ≠ ']' by decide, if_false]
  rw [h]
  rfl

/-- `JSON.parse(JSON.stringify(ledger))` for a ledger of binary64 amounts and ids. -/
theorem parse_stringify_ledger (L : List Transaction)
    (hdec : ∀ t ∈ L, t.amount.IsBinary64 ∧ (JSNum.fin (t.id : ℚ)).IsBinary64) :
    JSON.parse (JSON.stringify (ledgerToJS L)) = .ok (ledgerToJS L) := by
  cases L with
  | nil => decide
  | cons t ts =>
    obtain ⟨r, hr⟩ := stringifyElements_head t ts [']']
    have hlen := stringifyElements_length ts t
    have hpe := parseElements_ledger ts t
      (2 * (stringifyElements ((t :: ts).map Transaction.toJS) ++ [']']).length - ts.length - 7)
      [] hdec
    have hfuel : ts.length + 9 +
        (2 * (stringifyElements ((t :: ts).map Transaction.toJS) ++ [']']).length
          - ts.length - 7) =
        2 * ('[' :: (stringifyElements ((t :: ts).map Transaction.toJS) ++ [']'])).length := by
      simp only [List.length_append, List.length_singleton, List.length_cons]
      omega
    rw [hfuel, hr] at hpe
    have hpv := parseValue_array _ ('{' :: r) r [] _
      (skipWhiteSpace_cons '{' r (by decide)) hpe
    unfold JSON.parse JSON.stringify ledgerToJS
    simp only [String.toList, stringifyValue]
    rw [hr, skipWhiteSpace_cons '[' _ (by decide), hpv]
    rfl

/-! ## The fuel of `JSON.parse` is never exhausted -/

theorem Parsed.map_ok_iff {α β : Type} (f : α → β) (p : Parsed α) (b : β) (r : List Char) :
    p.map f = .ok b r ↔ ∃ a, p = .ok a r ∧ f a = b := by
  cases p with
  | ok a rest =>
    simp only [Parsed.map, Parsed.ok.injEq]
    constructor
    · rintro ⟨h1, h2⟩; exact ⟨a, ⟨rfl, h2⟩, h1⟩
    · rintro ⟨a', ⟨h1, h2⟩, h3⟩; subst h1; exact ⟨h3, h2⟩
  | syntaxError => simp [Parsed.map]
  | outOfFuel => simp [Parsed.map]

theorem Parsed.map_outOfFuel_iff {α β : Type} (f : α → β) (p : Parsed α) :
    p.map f = .outOfFuel ↔ p = .outOfFuel := by
  cases p <;> simp [Parsed.map]

theorem dropWhile_length_le (p : Char → Bool) (cs : List Char) :
    (cs.dropWhile p).length ≤ cs.length :=
  (List.dropWhile_sublist p).length_le

theorem skipWhiteSpace_length (cs : List Char) : (skipWhiteSpace cs).length ≤ cs.length :=
  dropWhile_length_le _ _

theorem readStringBody_length : ∀ (m : Nat) (cs s r : List Char), cs.length ≤ m →
    readStringBody cs = .ok s r → r.length ≤ cs.length := by
  intro m
  induction m with
  | zero =>
    intro cs s r hm h
    have : cs = [] := List.length_eq_zero.1 (by omega)
    subst this
    rw [readStringBody.eq_def] at h
    cases h
  | succ m ih =>
    intro cs s r hm h
    cases cs with
    | nil => rw [readStringBody.eq_def] at h; cases h
    | cons c cs1 =>
      simp only [List.length_cons] at hm ⊢
      rw [readStringBody.eq_def] at h
      simp only at h
      by_cases h1 : c = '"'
      · simp only [h1, if_true, Parsed.ok.injEq] at h
        rw [← h.2]; omega
      · simp only [h1, if_false] at h
        by_cases h2 : c = '\\'
        · simp only [h2, if_true] at h
          cases cs1 with
          | nil => cases h
          | cons e cs2 =>
            simp only [List.length_cons] at hm ⊢
            by_cases h3 : e = 'u'
            · simp only [h3, if_true] at h
              split at h
              · rename_i a b c' d cs3
                simp only [List.length_cons] at hm ⊢
                split at h
                · obtain ⟨s', hs', _⟩ := (Parsed.map_ok_iff _ _ _ _).1 h
                  have := ih cs3 s' r (by omega) hs'
                  omega
                · cases h
              · cases h
            · simp only [h3, if_false] at h
              split at h
              · obtain ⟨s', hs', _⟩ := (Parsed.map_ok_iff _ _ _ _).1 h
                have := ih cs2 s' r (by omega) hs'
                omega
              · cases h
        · simp only [h2, if_false] at h
          by_cases h3 : c.toNat < 32
          · simp only [h3, if_true] at h
            cases h
          · simp only [h3, if_false] at h
            obtain ⟨s', hs', _⟩ := (Parsed.map_ok_iff _ _ _ _).1 h
            have := ih cs1 s' r (by omega) hs'
            omega

theorem readFraction_length (cs fp r : List Char) (h : readFraction cs = some (fp, r)) :
    r.length ≤ cs.length := by
  cases cs with
  | nil =>
    simp only [readFraction, Option.some.injEq, Prod.mk.injEq] at h
    rw [← h.2]
  | cons c cs1 =>
    simp only [readFraction] at h
    split_ifs at h with h1 h2
    · simp only [Option.some.injEq, Prod.mk.injEq] at h
      rw [← h.2]
      have := dropWhile_length_le isDecDigit cs1
      simp only [List.length_cons]
      omega
    · simp only [Option.some.injEq, Prod.mk.injEq] at h
      rw [← h.2]

theorem readExponent_length (cs r : List Char) (e : Int) (h : readExponent cs = some (e, r)) :
    r.length ≤ cs.length := by
  cases cs with
  | nil =>
    simp only [readExponent, Option.some.injEq, Prod.mk.injEq] at h
    rw [← h.2]
  | cons c cs1 =>
    simp only [readExponent] at h
    split_ifs at h with h1
    · cases cs1 with
      | nil => cases h
      | cons s r1 =>
        have ha := dropWhile_length_le isDecDigit r1
        have hb := dropWhile_length_le isDecDigit (s :: r1)
        simp only [List.length_cons] at hb ⊢
        simp only at h
        split_ifs at h <;> simp only [Option.some.injEq, Prod.mk.injEq] at h <;>
          (rw [← h.2]; omega)
    · simp only [Option.some.injEq, Prod.mk.injEq] at h
      rw [← h.2]

theorem readUnsignedNumber_length (cs r : List Char) (q : ℚ)
    (h : readUnsignedNumber cs = .ok q r) : r.length ≤ cs.length := by
  unfold readUnsignedNumber at h
  simp only at h
  split_ifs at h
  split at h
  · cases h
  · rename_i fp r2 hf
    split at h
    · cases h
    · rename_i e r3 he
      simp only [Parsed.ok.injEq] at h
      rw [← h.2]
      have h1 := readFraction_length _ _ _ hf
      have h2 := readExponent_length _ _ _ he
      have h3 := dropWhile_length_le isDecDigit cs
      omega

theorem readNumber_length (cs r : List Char) (x : JSNum) (h : readNumber cs = .ok x r) :
    r.length ≤ cs.length := by
  cases cs with
  | nil => simp [readNumber] at h
  | cons c cs1 =>
    simp only [readNumber] at h
    split_ifs at h
    · obtain ⟨q, hq, _⟩ := (Parsed.map_ok_iff _ _ _ _).1 h
      have := readUnsignedNumber_length _ _ _ hq
      simp only [List.length_cons]
      omega
    · obtain ⟨q, hq, _⟩ := (Parsed.map_ok_iff _ _ _ _).1 h
      exact readUnsignedNumber_length _ _ _ hq

theorem parse_length (n : Nat) :
    (∀ cs v r, parseValue n cs = .ok v r → r.length ≤ cs.length) ∧
    (∀ cs vs r, parseElements n cs = .ok vs r → r.length ≤ cs.length) ∧
    (∀ cs ps r, parseMembers n cs = .ok ps r → r.length ≤ cs.length) := by
  induction n with
  | zero =>
    refine ⟨?_, ?_, ?_⟩ <;> intro cs v r h
    · simp [parseValue] at h
    · simp [parseElements] at h
    · simp [parseMembers] at h
  | succ n ih =>
    obtain ⟨ihV, ihE, ihM⟩ := ih
    refine ⟨?_, ?_, ?_⟩
    · intro cs v r h
      cases cs with
      | nil => simp [parseValue] at h
      | cons c r0 =>
        simp only [parseValue] at h
        simp only [List.length_cons]
        by_cases h1 : c = '"'
        · simp only [h1, if_true] at h
          obtain ⟨s, hs, _⟩ := (Parsed.map_ok_iff _ _ _ _).1 h
          have := readStringBody_length _ _ _ _ le_rfl hs
          omega
        · simp only [h1, if_false] at h
          by_cases h2 : c = '['
          · simp only [h2, if_true] at h
            have hws := skipWhiteSpace_length r0
            split at h
            · cases h
            · rename_i d r1 heq
              rw [heq] at hws
              simp only [List.length_cons] at hws
              split_ifs at h
              · simp only [Parsed.ok.injEq] at h
                rw [← h.2]; omega
              · obtain ⟨vs, hvs, _⟩ := (Parsed.map_ok_iff _ _ _ _).1 h
                have := ihE _ _ _ hvs
                simp only [List.length_cons] at this
                omega
          · simp only [h2, if_false] at h
            by_cases h3 : c = '{'
            · simp only [h3, if_true] at h
              have hws := skipWhiteSpace_length r0
              split at h
              · cases h
              · rename_i d r1 heq
                rw [heq] at hws
                simp only [List.length_cons] at hws
                split_ifs at h
                · simp only [Parsed.ok.injEq] at h
                  rw [← h.2]; omega
                · obtain ⟨vs, hvs, _⟩ := (Parsed.map_ok_iff _ _ _ _).1 h
                  have := ihM _ _ _ hvs
                  simp only [List.length_cons] at this
                  omega
            · simp only [h3, if_false] at h
              split_ifs at h
              · obtain ⟨x, hx, _⟩ := (Parsed.map_ok_iff _ _ _ _).1 h
                have := readNumber_length _ _ _ hx
                simp only [List.length_cons] at this
                omega
              · split at h
                · rename_i r1 heq
                  simp only [Parsed.ok.injEq] at h
                  have := congrArg List.length heq
                  simp only [List.length_cons] at this
                  rw [← h.2]; omega
                · rename_i r1 heq
                  simp only [Parsed.ok.injEq] at h
                  have := congrArg List.length heq
                  simp only [List.length_cons] at this
                  rw [← h.2]; omega
                · rename_i r1 heq
                  simp only [Parsed.ok.injEq] at h
                  have := congrArg List.length heq
                  simp only [List.length_cons] at this
                  rw [← h.2]; omega
                · cases h
    · intro cs vs r h
      simp only [parseElements] at h
      split at h
      · rename_i v r1 hv
        have h1 := ihV _ _ _ hv
        have hws := skipWhiteSpace_length r1
        split at h
        · cases h
        · rename_i d r2 heq
          rw [heq] at hws
          simp only [List.length_cons] at hws
          split_ifs at h
          · obtain ⟨ws, hws2, _⟩ := (Parsed.map_ok_iff _ _ _ _).1 h
            have := ihE _ _ _ hws2
            have := skipWhiteSpace_length r2
            omega
          · simp only [Parsed.ok.injEq] at h
            rw [← h.2]; omega
      · cases h
      · cases h
    · intro cs ps r h
      cases cs with
      | nil => simp [parseMembers] at h
      | cons q r0 =>
        simp only [parseMembers] at h
        simp only [List.length_cons]
        split_ifs at h
        · split at h
          · rename_i k r1 hk
            have h1 := readStringBody_length _ _ _ _ le_rfl hk
            have hws := skipWhiteSpace_length r1
            split at h
            · cases h
            · rename_i col r2 heq
              rw [heq] at hws
              simp only [List.length_cons] at hws
              split_ifs at h
              · split at h
                · rename_i v r3 hv
                  have h2 := ihV _ _ _ hv
                  have hws2 := skipWhiteSpace_length r2
                  have hws3 := skipWhiteSpace_length r3
                  split at h
                  · cases h
                  · rename_i d r4 heq2
                    rw [heq2] at hws3
                    simp only [List.length_cons] at hws3
                    split_ifs at h
                    · obtain ⟨qs, hqs, _⟩ := (Parsed.map_ok_iff _ _ _ _).1 h
                      have := ihM _ _ _ hqs
                      have := skipWhiteSpace_length r4
                      omega
                    · simp only [Parsed.ok.injEq] at h
                      rw [← h.2]; omega
                · cases h
                · cases h
          · cases h
          · cases h

theorem readStringBody_ne_outOfFuel : ∀ (m : Nat) (cs : List Char), cs.length ≤ m →
    readStringBody cs ≠ .outOfFuel := by
  intro m
  induction m with
  | zero =>
    intro cs hm h
    have : cs = [] := List.length_eq_zero.1 (by omega)
    subst this
    rw [readStringBody.eq_def] at h
    cases h
  | succ m ih =>
    intro cs hm h
    cases cs with
    | nil => rw [readStringBody.eq_def] at h; cases h
    | cons c cs1 =>
      simp only [List.length_cons] at hm
      rw [readStringBody.eq_def] at h
      simp only at h
      split_ifs at h
      · split at h
        · cases h
        · rename_i e cs2
          simp only [List.length_cons] at hm
          split_ifs at h
          · split at h
            · rename_i a b c' d cs3
              simp only [List.length_cons] at hm
              split at h
              · exact ih cs3 (by omega) ((Parsed.map_outOfFuel_iff _ _).1 h)
              · cases h
            · cases h
          · split at h
            · exact ih cs2 (by omega) ((Parsed.map_outOfFuel_iff _ _).1 h)
            · cases h
      · exact ih cs1 (by omega) ((Parsed.map_outOfFuel_iff _ _).1 h)

theorem readUnsignedNumber_ne_outOfFuel (cs : List Char) : readUnsignedNumber cs ≠ .outOfFuel := by
  intro h
  unfold readUnsignedNumber at h
  simp only at h
  split_ifs at h
  split at h
  · cases h
  · split at h <;> cases h

theorem readNumber_ne_outOfFuel (cs : List Char) : readNumber cs ≠ .outOfFuel := by
  intro h
  cases cs with
  | nil => simp [readNumber] at h
  | cons c cs1 =>
    simp only [readNumber] at h
    split_ifs at h
    · exact readUnsignedNumber_ne_outOfFuel _ ((Parsed.map_outOfFuel_iff _ _).1 h)
    · exact readUnsignedNumber_ne_outOfFuel _ ((Parsed.map_outOfFuel_iff _ _).1 h)

/-- With fuel above twice the length of the text, no call of the parser runs out. -/
theorem parse_fuel (n : Nat) :
    (∀ cs, 2 * cs.length + 1 ≤ n → parseValue n cs ≠ .outOfFuel) ∧
    (∀ cs, 2 * cs.length + 2 ≤ n → parseElements n cs ≠ .outOfFuel) ∧
    (∀ cs, 2 * cs.length + 2 ≤ n → parseMembers n cs ≠ .outOfFuel) := by
  induction n with
  | zero =>
    refine ⟨?_, ?_, ?_⟩ <;> intro cs hn <;> omega
  | succ n ih =>
    obtain ⟨ihV, ihE, ihM⟩ := ih
    refine ⟨?_, ?_, ?_⟩
    · intro cs hn h
      cases cs with
      | nil => simp [parseValue] at h
      | cons c r0 =>
        simp only [parseValue] at h
        simp only [List.length_cons] at hn
        by_cases h1 : c = '"'
        · simp only [h1, if_true] at h
          exact readStringBody_ne_outOfFuel _ _ le_rfl ((Parsed.map_outOfFuel_iff _ _).1 h)
        · simp only [h1, if_false] at h
          by_cases h2 : c = '['
          · simp only [h2, if_true] at h
            have hws := skipWhiteSpace_length r0
            split at h
            · cases h
            · rename_i d r1 heq
              rw [heq] at hws
              split_ifs at h
              exact ihE _ (by omega) ((Parsed.map_outOfFuel_iff _ _).1 h)
          · simp only [h2, if_false] at h
            by_cases h3 : c = '{'
            · simp only [h3, if_true] at h
              have hws := skipWhiteSpace_length r0
              split at h
              · cases h
              · rename_i d r1 heq
                rw [heq] at hws
                split_ifs at h
                exact ihM _ (by omega) ((Parsed.map_outOfFuel_iff _ _).1 h)
            · simp only [h3, if_false] at h
              split_ifs at h
              · exact readNumber_ne_outOfFuel _ ((Parsed.map_outOfFuel_iff _ _).1 h)
              · split at h <;> cases h
    · intro cs hn h
      simp only [parseElements] at h
      split at h
      · rename_i v r1 hv
        have h1 := (parse_length n).1 _ _ _ hv
        have hws := skipWhiteSpace_length r1
        split at h
        · cases h
        · rename_i d r2 heq
          rw [heq] at hws
          simp only [List.length_cons] at hws
          split_ifs at h
          have := skipWhiteSpace_length r2
          exact ihE _ (by omega) ((Parsed.map_outOfFuel_iff _ _).1 h)
      · cases h
      · rename_i hv
        exact ihV cs (by omega) hv
    · intro cs hn h
      cases cs with
      | nil => simp [parseMembers] at h
      | cons q r0 =>
        simp only [parseMembers] at h
        simp only [List.length_cons] at hn
        split_ifs at h
        split at h
        · rename_i k r1 hk
          have h1 := readStringBody_length _ _ _ _ le_rfl hk
          have hws := skipWhiteSpace_length r1
          split at h
          · cases h
          · rename_i col r2 heq
            rw [heq] at hws
            simp only [List.length_cons] at hws
            split_ifs at h
            have hws2 := skipWhiteSpace_length r2
            split at h
            · rename_i v r3 hv
              have h2 := (parse_length n).1 _ _ _ hv
              have hws3 := skipWhiteSpace_length r3
              split at h
              · cases h
              · rename_i d r4 heq2
                rw [heq2] at hws3
                simp only [List.length_cons] at hws3
                split_ifs at h
                have := skipWhiteSpace_length r4
                exact ihM _ (by omega) ((Parsed.map_outOfFuel_iff _ _).1 h)
            · cases h
            · rename_i hv
              exact ihV _ (by omega) hv
        · cases h
        · rename_i hk
          exact readStringBody_ne_outOfFuel _ _ le_rfl hk

/-- `JSON.parse` returns a value or throws a SyntaxError: the bound on the calls of
the parser is never the reason for an error. -/
theorem JSON.parse_ne_nestingBound (text : String) :
    JSON.parse text ≠ .error .nestingBound := by
  intro h
  unfold JSON.parse at h
  split at h
  · split_ifs at h
    cases h
  · cases h
  · rename_i hp
    have hlen := skipWhiteSpace_length text.toList
    exact (parse_fuel _).1 _ (by omega) hp

/-! ## C6: persist, then reload -/

theorem txType_toString_injective (a b : TxType) (h : a.toString = b.toString) : a = b := by
  cases a <;> cases b <;> first | rfl | exact absurd h (by decide)

theorem category_toString_injective (a b : Category) (h : a.toString = b.toString) : a = b := by
  cases a <;> cases b <;> first | rfl | exact absurd h (by decide)

theorem transaction_toJS_injective (t u : Transaction) (h : t.toJS = u.toJS) : t = u := by
  obtain ⟨d1, ty1, c1, ds1, a1, i1⟩ := t
  obtain ⟨d2, ty2, c2, ds2, a2, i2⟩ := u
  simp only [Transaction.toJS, JSVal.obj.injEq, List.cons.injEq, Prod.mk.injEq, JSVal.str.injEq,
    JSVal.num.injEq, JSNum.fin.injEq, Int.cast_inj, true_and, and_true] at h
  obtain ⟨h1, h2, h3, h4, h5, h6⟩ := h
  rw [h1, txType_toString_injective _ _ h2, category_toString_injective _ _ h3, h4, h5, h6]

theorem ledgerToJS_injective (L L' : List Transaction) (h : ledgerToJS L' = ledgerToJS L) :
    L' = L := by
  simp only [ledgerToJS, JSVal.arr.injEq] at h
  induction L' generalizing L with
  | nil =>
    cases L with
    | nil => rfl
    | cons t ts => simp at h
  | cons u us ih =>
    cases L with
    | nil => simp at h
    | cons t ts =>
      simp only [List.map_cons, List.cons.injEq] at h
      rw [transaction_toJS_injective _ _ h.1, ih ts h.2]

theorem strToBoolean_stringify_ledger (L : List Transaction) :
    strToBoolean (JSON.stringify (ledgerToJS L)) = true := by
  simp [strToBoolean, JSON.stringify, ledgerToJS, stringifyValue, String.toList]

theorem loadEffect_saveEffect (storage : Storage) (L : List Transaction) :
    loadEffect (saveEffect storage L) = JSON.parse (JSON.stringify (ledgerToJS L)) := by
  unfold loadEffect saveEffect
  rw [JSObject.get_set, if_pos rfl]
  simp only [strToBoolean_stringify_ledger, if_true]

/-- C6: for every ledger (its amounts and ids finite Number values), persisting it
and reloading the stored blob yields the same records, in the same order, with equal
id, date, type, category, description and amount; the empty ledger reloads as the
empty ledger. -/
theorem persist_reload (storage : Storage) (L : List Transaction)
    (hnum : ∀ t ∈ L, t.amount.IsBinary64 ∧ (JSNum.fin (t.id : ℚ)).IsBinary64) :
    loadEffect (saveEffect storage L) = .ok (ledgerToJS L) ∧
    (∀ L' : List Transaction, loadEffect (saveEffect storage L) = .ok (ledgerToJS L') →
      L' = L) ∧
    loadEffect (saveEffect storage []) = .ok (.arr []) := by
  have h := parse_stringify_ledger L hnum
  have h0 := parse_stringify_ledger [] (by simp)
  rw [← loadEffect_saveEffect storage] at h h0
  refine ⟨h, ?_, h0⟩
  intro L' hL'
  rw [h] at hL'
  exact ledgerToJS_injective L L' (Except.ok.inj hL').symm

/-- C6 at a concrete input: a paycheck of 5000 and groceries for 19.99 (as `Number`
reads the text), over a storage that holds an older blob; the blob written is the
text `JSON.stringify` gives in a browser. -/
theorem persist_reload_witness :
    saveEffect [(STORAGE_KEY, "[]")]
        [⟨"2024-01-01", .income, .Salary, "Paycheck", toNumber "5000", 1704067200000⟩,
         ⟨"2024-01-02", .expense, .Food, "Groceries", toNumber "19.99", 1704153600000⟩] =
      [(STORAGE_KEY, "[\x7b\"date\":\"2024-01-01\",\"type\":\"income\",\"category\":\"Salary\",\"description\":\"Paycheck\",\"amount\":5000,\"id\":1704067200000\x7d,\x7b\"date\":\"2024-01-02\",\"type\":\"expense\",\"category\":\"Food\",\"description\":\"Groceries\",\"amount\":19.99,\"id\":1704153600000\x7d]")] ∧
    loadEffect (saveEffect [(STORAGE_KEY, "[]")]
        [⟨"2024-01-01", .income, .Salary, "Paycheck", toNumber "5000", 1704067200000⟩,
         ⟨"2024-01-02", .expense, .Food, "Groceries", toNumber "19.99", 1704153600000⟩]) =
      .ok (ledgerToJS
        [⟨"2024-01-01", .income, .Salary, "Paycheck", toNumber "5000", 1704067200000⟩,
         ⟨"2024-01-02", .expense, .Food, "Groceries", toNumber "19.99", 1704153600000⟩]) :=
  ⟨by decide!,
   (persist_reload [(STORAGE_KEY, "[]")]
    [⟨"2024-01-01", .income, .Salary, "Paycheck", toNumber "5000", 1704067200000⟩,
     ⟨"2024-01-02", .expense, .Food, "Groceries", toNumber "19.99", 1704153600000⟩]
    (by decide!)).1⟩

/-! ## C7: loading -/

/-- C7 as stated fails: on a stored value that is not parseable, `JSON.parse` throws
a SyntaxError that nothing catches; the effect does not yield the empty ledger. -/
theorem loadEffect_malformed_throws :
    JSON.parse "[1, 2" = .error .SyntaxError ∧
    loadEffect [(STORAGE_KEY, "[1, 2")] = .error .SyntaxError ∧
    loadEffect [(STORAGE_KEY, "[1, 2")] ≠ .ok (.arr []) := by
  decide!

/-- C7, amended: the load effect yields the empty ledger, without an error, when the
storage slot holds no value or the empty string; on any other stored text it yields
what `JSON.parse` yields, so a malformed value raises the SyntaxError of `JSON.parse`
(the only error the effect can raise) and only a well-formed blob populates the
ledger. -/
theorem loadEffect_spec (storage : Storage) :
    (JSObject.get storage STORAGE_KEY = none → loadEffect storage = .ok (.arr [])) ∧
    (JSObject.get storage STORAGE_KEY = some "" → loadEffect storage = .ok (.arr [])) ∧
    (∀ data : String, data ≠ "" → JSObject.get storage STORAGE_KEY = some data →
      loadEffect storage = JSON.parse data) ∧
    (∀ v : JSVal, loadEffect storage = .ok v → v ≠ .arr [] →
      ∃ data : String, JSObject.get storage STORAGE_KEY = some data ∧
        JSON.parse data = .ok v) ∧
    (∀ e : JSError, loadEffect storage = .error e →
      e = .SyntaxError ∧ ∃ data : String, JSObject.get storage STORAGE_KEY = some data ∧
        JSON.parse data = .error .SyntaxError) := by
  refine ⟨?_, ?_, ?_, ?_, ?_⟩
  · intro h
    simp [loadEffect, h]
  · intro h
    simp [loadEffect, h, strToBoolean, String.toList]
  · intro data hne h
    simp [loadEffect, h, strToBoolean_of_ne_empty hne]
  · intro v hv hne
    unfold loadEffect at hv
    cases hget : JSObject.get storage STORAGE_KEY with
    | none =>
      rw [hget] at hv
      exact absurd (Except.ok.inj hv).symm hne
    | some data =>
      rw [hget] at hv
      simp only at hv
      by_cases hb : strToBoolean data = true
      · rw [if_pos hb] at hv
        exact ⟨data, rfl, hv⟩
      · rw [if_neg hb] at hv
        exact absurd (Except.ok.inj hv).symm hne
  · intro e he
    unfold loadEffect at he
    cases hget : JSObject.get storage STORAGE_KEY with
    | none => rw [hget] at he; cases he
    | some data =>
      rw [hget] at he
      simp only at he
      by_cases hb : strToBoolean data = true
      · rw [if_pos hb] at he
        have hne := JSON.parse_ne_nestingBound data
        cases e with
        | SyntaxError => exact ⟨rfl, data, rfl, he⟩
        | nestingBound => exact absurd he hne
      · rw [if_neg hb] at he
        cases he

end App
